import Mathlib

/-!
A shallow embedding of `backlink_adder` (src/src.py).

The program scans a directory of markdown files, extracts the hyperlinks of
each file, and appends a generated "Backlinks" section to every file.

Modelling decisions, all noted in place:
* The filesystem is an association list from canonical absolute path strings
  to file contents (`FS`).  `open` on a missing path raises in Python; the
  model reads `""` and the well-formedness hypotheses of the theorems keep
  every read on a present file.
* POSIX paths are plain strings manipulated through component lists; this
  mirrors `pathlib`/`posixpath` semantics (no symbolic links, so
  `Path.resolve` coincides with textual normalisation as in `os.path.normpath`).
* The markdown → HTML → `//a/@href` pipeline (external collaborators per the
  program) is embedded as a scanner recognising the inline link syntax
  `[text](target)`; first-level headings are ATX `# ` lines.
* Python `set` iteration order is unspecified but deterministic within one
  process; the model determinises it to dictionary (insertion) order, which
  the code's own comprehension iterates.
-/

namespace BacklinkAdder

/-! ## String and path primitives -/

/-- Split a character list on a separator, like Python `str.split(sep)`. -/
def splitOnCharAux (sep : Char) : List Char → List Char → List String
  | [], cur => [String.mk cur.reverse]
  | c :: rest, cur =>
    if c = sep then String.mk cur.reverse :: splitOnCharAux sep rest []
    else splitOnCharAux sep rest (c :: cur)

def splitOnCharP (sep : Char) (s : String) : List String :=
  splitOnCharAux sep s.data []

/-- Join path components with slashes. -/
def interSlash : List String → String
  | [] => ""
  | [c] => c
  | c :: rest => c ++ "/" ++ interSlash rest

/-- Does the path string start with the POSIX root marker? -/
def isAbs (s : String) : Bool :=
  s.data.head? == some '/' 

/-- The components of a path, with empty and `.` components dropped,
as `pathlib` does at `Path` construction time. -/
def pathComps (s : String) : List String :=
  (splitOnCharP '/' s).filter (fun c => c != "" && c != ".")

/-- Normalisation performed by `PurePosixPath.__init__`: drop empty and `.`
components, keep `..`, remember absoluteness.  Path equality in `pathlib`
is equality of this normal form. -/
def pathlibNorm (s : String) : String :=
  let cs := pathComps s
  if isAbs s then "/" ++ interSlash cs
  else match cs with
    | [] => "."
    | _ => interSlash cs

/-- Resolve `..` components against a stack of already-normalised leading
components, as `Path.resolve`/`os.path.normpath` do on an absolute path
(at the root, `..` stays at the root). -/
def normAux : List String → List String → List String
  | acc, [] => acc.reverse
  | acc, c :: rest =>
    if c = ".." then normAux acc.tail rest
    else normAux (c :: acc) rest

/-- `Path.resolve()` with no symbolic links: make the path absolute against
the process working directory `cwd`, then collapse `.` and `..`. -/
def resolveP (cwd p : String) : String :=
  if isAbs p then "/" ++ interSlash (normAux [] (pathComps p))
  else "/" ++ interSlash (normAux [] (pathComps cwd ++ pathComps p))

/-- `PurePath.parent` on the `pathlib` normal form. -/
def parentP (s : String) : String :=
  let cs := (pathComps s).dropLast
  if isAbs s then "/" ++ interSlash cs
  else match cs with
    | [] => "."
    | _ => interSlash cs

/-- `PurePath.name`: the final component (empty for a bare root). -/
def baseName (s : String) : String :=
  (pathComps s).getLastD ""

/-- Index of the last occurrence of a character. -/
def lastIdxOf (c : Char) : List Char → Option Nat
  | [] => none
  | x :: rest =>
    match lastIdxOf c rest with
    | some i => some (i + 1)
    | none => if x = c then some 0 else none

/-- The extension as computed by `os.path.splitext(p)[1]`: the suffix from
the last dot of the basename, unless every character before that dot is
itself a dot (leading dots never begin an extension). -/
def extOf (s : String) : String :=
  let b := (baseName s).data
  match lastIdxOf '.' b with
  | none => ""
  | some i => if (b.take i).all (fun c => c = '.') then "" else String.mk (b.drop i)

def lowerStr (s : String) : String :=
  String.mk (s.data.map Char.toLower)

/-- Python `somepath.split('#')[0]`. -/
def stripFrag (s : String) : String :=
  String.mk (s.data.takeWhile (fun c => c ≠ '#'))

/-- The link filter of `MarkdownFile.links`:
`os.path.splitext(str(somelink).split('#')[0])[1].lower() == '.md'`. -/
def isMdLink (s : String) : Bool :=
  lowerStr (extOf (stripFrag s)) == ".md"

/-- Length of the longest common prefix of two component lists. -/
def commonLen : List String → List String → Nat
  | x :: xs, y :: ys => if x = y then commonLen xs ys + 1 else 0
  | _, _ => 0

/-- `os.path.relpath(target, start)`: both arguments are made absolute
against `cwd` and normalised, the common prefix is removed, and the start's
remainder is climbed with `..` components. -/
def relpathP (cwd target start : String) : String :=
  let tl := pathComps (resolveP cwd target)
  let sl := pathComps (resolveP cwd start)
  let i := commonLen tl sl
  match List.replicate (sl.length - i) ".." ++ tl.drop i with
  | [] => "."
  | rel => interSlash rel

/-! ## The filesystem -/

/-- The filesystem: an association list from canonical absolute paths to
contents. -/
abbrev FS := List (String × String)

/-- Read a file (missing files read as empty; the source would raise, and
the theorems' hypotheses keep every read on a present file). -/
def readFS (fs : FS) (p : String) : String :=
  (fs.lookup p).getD ""

/-- Write a file in place, appending it if absent. -/
def writeFS (fs : FS) (p c : String) : FS :=
  match fs with
  | [] => [(p, c)]
  | (k, v) :: rest => if k = p then (p, c) :: rest else (k, v) :: writeFS rest p c

/-! ## The rendering collaborators

`doctree` runs the file through `markdown.markdown` and `lxml.html.fromstring`;
`links` then reads every `//a/@href` and `__init__` reads the first
`//h1//text()`.  The embedding recognises inline links `[text](target)` with
a three-state scanner and ATX `# ` first-level headings. -/

inductive ScanSt where
  | outside : ScanSt
  | seenClose : ScanSt
  | inside : List Char → ScanSt
deriving DecidableEq

/-- The targets of the inline links of a character stream. -/
def scanTargets : ScanSt → List Char → List String
  | _, [] => []
  | .outside, c :: rest =>
    if c = ']' then scanTargets .seenClose rest else scanTargets .outside rest
  | .seenClose, c :: rest =>
    if c = '(' then scanTargets (.inside []) rest
    else if c = ']' then scanTargets .seenClose rest
    else scanTargets .outside rest
  | .inside acc, c :: rest =>
    if c = ')' then String.mk acc.reverse :: scanTargets .outside rest
    else scanTargets (.inside (c :: acc)) rest

/-- The scanner state after a character stream. -/
def scanState : ScanSt → List Char → ScanSt
  | st, [] => st
  | .outside, c :: rest =>
    scanState (if c = ']' then .seenClose else .outside) rest
  | .seenClose, c :: rest =>
    scanState (if c = '(' then .inside [] else if c = ']' then .seenClose else .outside) rest
  | .inside acc, c :: rest =>
    scanState (if c = ')' then .outside else .inside (c :: acc)) rest

/-- The raw href strings of a document's content, in document order. -/
def hrefsOf (content : String) : List String :=
  scanTargets .outside content.data

/-- The text of the first first-level heading, when one exists. -/
def extractH1 (content : String) : Option String :=
  ((splitOnCharP '\n' content).filterMap
    (fun line =>
      if line.data.take 2 = ['#', ' '] then some (String.mk (line.data.drop 2)) else none)).head?

/-! ## The data model: `MarkdownFile` and `MarkdownDirectory` -/

structure MarkdownFile where
  /-- The path exactly as handed to the constructor (the `rglob` spelling),
  in `pathlib` normal form, as the `Path` object stores it. -/
  path : String
  /-- First `h1` text at construction time, else the file's base name. -/
  heading : String
deriving DecidableEq, Repr

structure MarkdownDirectory where
  p_path : String
  /-- Insertion-ordered dictionary from resolved path to file. -/
  files : List (String × MarkdownFile)
deriving DecidableEq, Repr

/-- `MarkdownFile.__init__`: store the path, compute the heading from the
current content (first `h1` text, else `self.path.name`). -/
def mkMarkdownFile (fs : FS) (cwd path : String) : MarkdownFile :=
  let content := readFS fs (resolveP cwd path)
  { path := path
    heading := (extractH1 content).getD (baseName path) }

/-- `MarkdownFile.get_absolute_path`: `none` for a non-string (`none`) or
empty input; inputs starting with `/` are returned as `Path(somepath)`
verbatim (note: no fragment stripping on this branch); otherwise the
fragment-stripped input is resolved against the file's own directory. -/
def get_absolute_path (cwd : String) (f : MarkdownFile) (somepath : Option String) :
    Option String :=
  match somepath with
  | none => none
  | some s =>
    if s.data.length = 0 then none
    else if s.data.head? = some '/' then some (pathlibNorm s)
    else some (resolveP (resolveP cwd (parentP f.path)) (stripFrag s))

/-- The `links` computation on a given content string: resolve every href
through `get_absolute_path` and keep the markup-extension survivors.  In the
source the `filter` runs after the `map`, and a `None` element stringifies to
`"None"` whose extension is not `.md`, so filtering the mapped `None`s away
first is equivalent. -/
def contentLinks (cwd : String) (f : MarkdownFile) (c : String) : List String :=
  ((hrefsOf c).filterMap (fun h => get_absolute_path cwd f (some h))).filter isMdLink

/-- `MarkdownFile.links`, reading the file's current content.  The Python
value is a `set`; downstream it is consumed only through membership tests and
set difference, so the model keeps the document-ordered list (duplicates are
harmless for membership). -/
def fileLinks (fs : FS) (cwd : String) (f : MarkdownFile) : List String :=
  contentLinks cwd f (readFS fs (resolveP cwd f.path))

/-- Python `dict` insertion: overwrite in place when the key exists, else
append. -/
def dictInsert {α β : Type} [DecidableEq α] (m : List (α × β)) (k : α) (v : β) :
    List (α × β) :=
  if (m.map Prod.fst).contains k then
    m.map (fun kv => if kv.1 = k then (k, v) else kv)
  else m ++ [(k, v)]

/-- Suffix test for the `rglob('*.md')` pattern. -/
def endsWithMd (s : String) : Bool :=
  s.data.reverse.take 3 == ['d', 'm', '.']

/-- `Path(path_string).rglob('*.md')`: every file under the resolved root
whose name matches `*.md`, spelled with the root exactly as the caller
spelled it (the model fixes filesystem-iteration order to `FS` order). -/
def discovered (fs : FS) (cwd root : String) : List String :=
  let pre := (resolveP cwd root ++ "/").data
  fs.filterMap (fun kv =>
    if pre.isPrefixOf kv.1.data && endsWithMd kv.1 then
      some (pathlibNorm (root ++ "/" ++ String.mk (kv.1.data.drop pre.length)))
    else none)

/-- `MarkdownDirectory.__init__`: one `MarkdownFile` per discovered path,
keyed by `(self.p_path.parent.resolve() / str(eachpath)).resolve()`. -/
def mkMarkdownDirectory (fs : FS) (cwd path_string : String) : MarkdownDirectory :=
  { p_path := path_string
    files := (discovered fs cwd path_string).foldl
      (fun m each =>
        let rp := resolveP (resolveP cwd (parentP (pathlibNorm path_string))) each
        dictInsert m rp (mkMarkdownFile fs cwd each))
      [] }

/-- `MarkdownDirectory.link_map`: resolved path ↦ current `links`, recomputed
from the current filesystem on each call. -/
def link_map (fs : FS) (cwd : String) (dir : MarkdownDirectory) :
    List (String × List String) :=
  dir.files.map (fun kv => (kv.1, fileLinks fs cwd kv.2))

/-! ## Backlink injection -/

/-- The literal block marker searched for and re-written by `add_backlinks`. -/
def marker : String := "\n\n---\n\n## Backlinks:\n"

/-- Index of the first occurrence of `pat` as a sublist, like `str.find`. -/
def findIdxP (pat : List Char) : List Char → Option Nat
  | [] => if pat.isPrefixOf ([] : List Char) then some 0 else none
  | c :: rest =>
    if pat.isPrefixOf (c :: rest) then some 0
    else (findIdxP pat rest).map (· + 1)

/-- The `r+`-mode phase of `add_backlinks`: truncate at the first marker
occurrence when one exists. -/
def truncAtMarker (s : String) : String :=
  match findIdxP marker.data s.data with
  | none => s
  | some i => String.mk (s.data.take i)

/-- One rendered backlink entry line. -/
def entryLine (title rel : String) : String :=
  "- [" ++ title ++ "](" ++ rel ++ ")\n"

/-- Stand-in for a `KeyError` on the `self.markdown_dir.files[...]` lookup;
the safety theorem for the candidate set shows it is never consulted. -/
def defaultFile : MarkdownFile := { path := "", heading := "" }

/-- The backlink key set of `add_backlinks`:
`{key for key, value in link_map.items() if self.path in value} - self.links`,
read off the current filesystem, in dictionary order. -/
def backlinkKeys (fs : FS) (cwd : String) (dir : MarkdownDirectory)
    (f : MarkdownFile) : List String :=
  (((link_map fs cwd dir).filter (fun kv => kv.2.contains f.path)).map Prod.fst).filter
    (fun k => !((fileLinks fs cwd f).contains k))

/-- The list of rendered entry lines for a backlink key list. -/
def entryLines (cwd : String) (dir : MarkdownDirectory) (f : MarkdownFile)
    (back : List String) : List String :=
  back.map (fun bk =>
    entryLine ((dir.files.lookup bk).getD defaultFile).heading
      (relpathP cwd bk (parentP f.path)))

/-- In-order concatenation of the `writelines` pieces. -/
def strConcat : List String → String
  | [] => ""
  | s :: rest => s ++ strConcat rest

/-- `MarkdownFile.add_backlinks`: truncate at the marker, then append the
marker and one line per computed backlink (the backlink set and `self.links`
are evaluated after the truncation, inside the `writelines` call). -/
def add_backlinks (fs : FS) (cwd : String) (dir : MarkdownDirectory)
    (f : MarkdownFile) : FS :=
  let key := resolveP cwd f.path
  let truncated := truncAtMarker (readFS fs key)
  let fs1 := writeFS fs key truncated
  let back := backlinkKeys fs1 cwd dir f
  writeFS fs1 key (truncated ++ marker ++ strConcat (entryLines cwd dir f back))

/-- `MarkdownDirectory.add_all_backlinks`: process every file in dictionary
order. -/
def add_all_backlinks (fs : FS) (cwd : String) (dir : MarkdownDirectory) : FS :=
  dir.files.foldl (fun s kv => add_backlinks s cwd dir kv.2) fs

/-! ## Derived notions used by the specification theorems -/

/-- A sound path component: nonempty, not a dot component, and free of the
separator. -/
def CleanComp (c : String) : Prop :=
  c ≠ "" ∧ c ≠ "." ∧ c ≠ ".." ∧ '/' ∉ c.data

/-- A canonical absolute path: absolute, built from sound components, and
syntactically equal to the rebuilt normal form (the spec's glossary entry
for canonical path). -/
def IsCanonP (s : String) : Prop :=
  isAbs s = true ∧ (∀ c ∈ pathComps s, CleanComp c) ∧ s = "/" ++ interSlash (pathComps s)

instance (s : String) : Decidable (IsCanonP s) := by
  unfold IsCanonP CleanComp; infer_instance

/-- The content kept by the truncation phase for the file at key `k`. -/
def coreOf (fs : FS) (k : String) : String :=
  truncAtMarker (readFS fs k)

/-- The block text `add_backlinks` appends for backlink key list `B`. -/
def blockTextOf (cwd : String) (dir : MarkdownDirectory) (f : MarkdownFile)
    (B : List String) : String :=
  marker ++ strConcat (entryLines cwd dir f B)

/-- A content is marker-clean when the first marker occurrence in the
content followed by the marker is exactly at the content's end: truncation
of any appended block then recovers the content exactly. -/
def MClean (c : String) : Prop :=
  findIdxP marker.data (c.data ++ marker.data) = some c.data.length

instance (c : String) : Decidable (MClean c) := by
  unfold MClean; infer_instance

/-- Modelled from the spec, section 4.2: the backlink-set formula
`backlinks(D) = (S : S a key of link_map, D in link_map[S]) - outbound_links(D)`
with membership tested on D's canonical path `k` (the key under which the
collection stores D). -/
def specBacklinks (fs : FS) (cwd : String) (dir : MarkdownDirectory)
    (k : String) (f : MarkdownFile) : List String :=
  (((link_map fs cwd dir).filter (fun kv => kv.2.contains k)).map Prod.fst).filter
    (fun s => !((fileLinks fs cwd f).contains s))

/-- Well-formedness of a collection state for the idempotence theorem:
stored paths coincide with the canonical keys, keys are distinct and carry
the markup extension with no characters that could disturb link rendering,
headings cannot close a link's text early, and every file's truncated core
is marker-clean and ends outside an unclosed link. -/
def GoodDir (fs0 : FS) (cwd : String) (dir : MarkdownDirectory) : Prop :=
  (∀ kf ∈ dir.files, kf.2.path = kf.1 ∧ IsCanonP kf.1) ∧
  (dir.files.map Prod.fst).Nodup ∧
  (∀ kf ∈ dir.files, ')' ∉ kf.1.data ∧ '#' ∉ kf.1.data ∧ isMdLink kf.1 = true) ∧
  (∀ kf ∈ dir.files, ']' ∉ kf.2.heading.data) ∧
  (∀ kf ∈ dir.files, MClean (coreOf fs0 kf.1) ∧
    scanState .outside (coreOf fs0 kf.1).data = .outside)

instance (fs0 : FS) (cwd : String) (dir : MarkdownDirectory) :
    Decidable (GoodDir fs0 cwd dir) := by
  unfold GoodDir; infer_instance

/-- The resolved-and-filtered links of a given target list. -/
def resolvedFilter (cwd : String) (f : MarkdownFile) (ts : List String) : List String :=
  (ts.filterMap (fun h => get_absolute_path cwd f (some h))).filter isMdLink

/-- Tameness data for one backlink key relative to a directory and a file. -/
def TameKey (cwd : String) (dir : MarkdownDirectory) (f : MarkdownFile) (bk : String) : Prop :=
  IsCanonP bk ∧ '#' ∉ bk.data ∧ isMdLink bk = true ∧
    ']' ∉ ((dir.files.lookup bk).getD defaultFile).heading.data ∧
    ')' ∉ (relpathP cwd bk (parentP f.path)).data

/-- A processed file is coherent in a state when its on-disk content is its
truncated core followed by a block whose keys are exactly what recomputation
over the state (with the file itself truncated) yields. -/
def Coherent (fs0 : FS) (cwd : String) (dir : MarkdownDirectory) (fs : FS)
    (kf : String × MarkdownFile) : Prop :=
  kf.1 ∈ fs.map Prod.fst ∧
  ∃ B, readFS fs kf.1 = coreOf fs0 kf.1 ++ blockTextOf cwd dir kf.2 B ∧
    B = backlinkKeys (writeFS fs kf.1 (coreOf fs0 kf.1)) cwd dir kf.2

/-- Modelled from the spec, section 6: the appended block format,
`\n\n---\n\n## Backlinks:\n` then one `- [<title>](<relative-path>)\n` line
per backlink, the title being the linking document's title and the path
relative to this document's directory. -/
def specBlockRender (cwd : String) (dir : MarkdownDirectory) (f : MarkdownFile)
    (back : List String) : String :=
  "\n\n---\n\n## Backlinks:\n" ++ strConcat (back.map (fun bk =>
    "- [" ++ ((dir.files.lookup bk).getD defaultFile).heading ++ "](" ++
      relpathP cwd bk (parentP f.path) ++ ")\n"))

/-! ## Concrete collections used as witnesses and counterexamples -/

/-- Two documents; `a.md` (titled Alpha) links to `b.md` (titled Beta). -/
def fsEx : FS :=
  [("/r/notes/a.md", "# Alpha\n\nsee [b](b.md)\n"),
   ("/r/notes/b.md", "# Beta\n\nnothing\n")]

/-- The example collection with its root spelled as an absolute path. -/
def dirExAbs : MarkdownDirectory := mkMarkdownDirectory fsEx "/r" "/r/notes"

/-- The same collection with its root spelled relative to the working
directory `/r`. -/
def dirExRel : MarkdownDirectory := mkMarkdownDirectory fsEx "/r" "notes"

def fileA : MarkdownFile := mkMarkdownFile fsEx "/r" "/r/notes/a.md"

def fileB : MarkdownFile := mkMarkdownFile fsEx "/r" "/r/notes/b.md"

def fileBRel : MarkdownFile := mkMarkdownFile fsEx "/r" "notes/b.md"

/-- Two mutually linking documents. -/
def fsMut : FS :=
  [("/m/a.md", "# A\n\n[b](b.md)\n"),
   ("/m/b.md", "# B\n\n[a](a.md)\n")]

def dirMut : MarkdownDirectory := mkMarkdownDirectory fsMut "/w" "/m"

def fileMutB : MarkdownFile := mkMarkdownFile fsMut "/w" "/m/b.md"

/-- One document whose only link is absolute-marker-prefixed and carries a
fragment. -/
def fsFrag : FS := [("/n/c.md", "# C\n\n[x](/d/b.md#sec)\n")]

def fileC : MarkdownFile := mkMarkdownFile fsFrag "/w" "/n/c.md"


/-! ## Lemmas: splitting and joining on the separator -/

theorem strMk_data (s : String) : String.mk s.data = s := rfl

/-! ## Step equations for the recursive functions -/

theorem slash_data : ("/" : String).data = ['/'] := rfl

theorem splitOnCharAux_nil_eq (sep : Char) (cur : List Char) :
    splitOnCharAux sep [] cur = [String.mk cur.reverse] := rfl

theorem splitOnCharAux_cons_eq (sep c : Char) (rest cur : List Char) :
    splitOnCharAux sep (c :: rest) cur =
      if c = sep then String.mk cur.reverse :: splitOnCharAux sep rest []
      else splitOnCharAux sep rest (c :: cur) := rfl

theorem normAux_nil_eq (acc : List String) : normAux acc [] = acc.reverse := rfl

theorem normAux_cons_eq (acc : List String) (c : String) (rest : List String) :
    normAux acc (c :: rest) =
      if c = ".." then normAux acc.tail rest else normAux (c :: acc) rest := rfl

/-! ## Lemmas: splitting and joining on the separator -/

theorem splitOnCharAux_sepFree (sep : Char) (xs : List Char) (h : sep ∉ xs) :
    ∀ ys cur, splitOnCharAux sep (xs ++ ys) cur = splitOnCharAux sep ys (xs.reverse ++ cur) := by
  induction xs with
  | nil => intro ys cur; simp
  | cons c rest ih =>
    intro ys cur
    have hc : c ≠ sep := fun hcs => h (hcs ▸ List.mem_cons_self c rest)
    have hrest : sep ∉ rest := fun hr => h (List.mem_cons_of_mem c hr)
    rw [List.cons_append, splitOnCharAux_cons_eq, if_neg hc, ih hrest ys (c :: cur)]
    simp [List.append_assoc]

theorem splitOnCharAux_all (sep : Char) (xs : List Char) (h : sep ∉ xs) (cur : List Char) :
    splitOnCharAux sep xs cur = [String.mk (cur.reverse ++ xs)] := by
  have h2 := splitOnCharAux_sepFree sep xs h [] cur
  rw [List.append_nil] at h2
  rw [h2, splitOnCharAux_nil_eq]
  simp

theorem splitOnCharAux_break (sep : Char) (xs ys cur : List Char) (h : sep ∉ xs) :
    splitOnCharAux sep (xs ++ sep :: ys) cur =
      String.mk (cur.reverse ++ xs) :: splitOnCharAux sep ys [] := by
  rw [splitOnCharAux_sepFree sep xs h (sep :: ys) cur, splitOnCharAux_cons_eq, if_pos rfl]
  simp

theorem splitOnCharAux_mem_subset (sep : Char) :
    ∀ (cs cur : List Char) (c : String), c ∈ splitOnCharAux sep cs cur →
      ∀ ch ∈ c.data, ch ∈ cur ∨ ch ∈ cs := by
  intro cs
  induction cs with
  | nil =>
    intro cur c hc ch hch
    rw [splitOnCharAux_nil_eq, List.mem_singleton] at hc
    subst hc
    exact Or.inl (List.mem_reverse.mp hch)
  | cons d rest ih =>
    intro cur c hc ch hch
    rw [splitOnCharAux_cons_eq] at hc
    by_cases hd : d = sep
    · rw [if_pos hd, List.mem_cons] at hc
      rcases hc with hc | hc
      · subst hc
        exact Or.inl (List.mem_reverse.mp hch)
      · rcases ih [] c hc ch hch with h | h
        · exact absurd h (List.not_mem_nil ch)
        · exact Or.inr (List.mem_cons_of_mem _ h)
    · rw [if_neg hd] at hc
      rcases ih (d :: cur) c hc ch hch with h | h
      · rcases List.mem_cons.mp h with h | h
        · exact Or.inr (h ▸ List.mem_cons_self d rest)
        · exact Or.inl h
      · exact Or.inr (List.mem_cons_of_mem _ h)

theorem splitOnCharAux_mem_nosep (sep : Char) :
    ∀ (cs cur : List Char), sep ∉ cur → ∀ c ∈ splitOnCharAux sep cs cur, sep ∉ c.data := by
  intro cs
  induction cs with
  | nil =>
    intro cur hcur c hc
    rw [splitOnCharAux_nil_eq, List.mem_singleton] at hc
    subst hc
    exact fun h => hcur (List.mem_reverse.mp h)
  | cons d rest ih =>
    intro cur hcur c hc
    rw [splitOnCharAux_cons_eq] at hc
    by_cases hd : d = sep
    · rw [if_pos hd, List.mem_cons] at hc
      rcases hc with hc | hc
      · subst hc
        exact fun h => hcur (List.mem_reverse.mp h)
      · exact ih [] (List.not_mem_nil sep) c hc
    · rw [if_neg hd] at hc
      have hdcur : sep ∉ d :: cur := by
        intro h
        rcases List.mem_cons.mp h with h | h
        · exact hd h.symm
        · exact hcur h
      exact ih (d :: cur) hdcur c hc

theorem pathComps_mem_clean (s : String) (c : String) (hc : c ∈ pathComps s) :
    c ≠ "" ∧ c ≠ "." ∧ '/' ∉ c.data ∧ ∀ ch ∈ c.data, ch ∈ s.data := by
  unfold pathComps at hc
  rcases List.mem_filter.mp hc with ⟨hmem, hpred⟩
  simp only [Bool.and_eq_true, bne_iff_ne] at hpred
  refine ⟨hpred.1, hpred.2, ?_, ?_⟩
  · exact splitOnCharAux_mem_nosep '/' s.data [] (List.not_mem_nil _) c hmem
  · intro ch hch
    rcases splitOnCharAux_mem_subset '/' s.data [] c hmem ch hch with h | h
    · exact absurd h (List.not_mem_nil ch)
    · exact h

theorem interSlash_data_mem : ∀ (cs : List String) (ch : Char),
    ch ∈ (interSlash cs).data → ch = '/' ∨ ∃ c ∈ cs, ch ∈ c.data := by
  intro cs
  induction cs with
  | nil => intro ch h; simp [interSlash] at h
  | cons c rest ih =>
    intro ch h
    cases rest with
    | nil => exact Or.inr ⟨c, List.mem_singleton_self c, h⟩
    | cons d rest2 =>
      have hdata : (interSlash (c :: d :: rest2)).data =
          c.data ++ '/' :: (interSlash (d :: rest2)).data := by
        show ((c ++ "/") ++ interSlash (d :: rest2)).data = _
        rw [String.data_append, String.data_append, slash_data]
        simp
      rw [hdata] at h
      rcases List.mem_append.mp h with h | h
      · exact Or.inr ⟨c, List.mem_cons_self _ _, h⟩
      · rcases List.mem_cons.mp h with h | h
        · exact Or.inl h
        · rcases ih ch h with h2 | ⟨e, he, hch⟩
          · exact Or.inl h2
          · exact Or.inr ⟨e, List.mem_cons_of_mem c he, hch⟩

/-- Splitting the slash-joined form of sound components recovers them. -/
theorem splitOnCharP_interSlash : ∀ (cs : List String),
    (∀ c ∈ cs, c ≠ "" ∧ '/' ∉ c.data) → cs ≠ [] →
    splitOnCharP '/' (interSlash cs) = cs := by
  intro cs
  induction cs with
  | nil => intro _ hne; exact absurd rfl hne
  | cons c rest ih =>
    intro h _
    have hc := h c (List.mem_cons_self _ _)
    cases rest with
    | nil =>
      show splitOnCharAux '/' c.data [] = [c]
      rw [splitOnCharAux_all '/' c.data hc.2 []]
      simp [strMk_data]
    | cons d rest2 =>
      have hrest : ∀ e ∈ d :: rest2, e ≠ "" ∧ '/' ∉ e.data :=
        fun e he => h e (List.mem_cons_of_mem c he)
      have hdata : (interSlash (c :: d :: rest2)).data =
          c.data ++ '/' :: (interSlash (d :: rest2)).data := by
        show ((c ++ "/") ++ interSlash (d :: rest2)).data = _
        rw [String.data_append, String.data_append, slash_data]
        simp
      unfold splitOnCharP
      rw [hdata, splitOnCharAux_break '/' c.data _ [] hc.2]
      rw [List.reverse_nil, List.nil_append, strMk_data]
      have h2 := ih hrest (List.cons_ne_nil d rest2)
      unfold splitOnCharP at h2
      rw [h2]

theorem pathComps_rebuild_rel (cs : List String)
    (h : ∀ c ∈ cs, c ≠ "" ∧ c ≠ "." ∧ '/' ∉ c.data) :
    pathComps (interSlash cs) = cs := by
  cases cs with
  | nil =>
    show (splitOnCharAux '/' ("" : String).data []).filter _ = []
    rfl
  | cons c rest =>
    unfold pathComps
    rw [splitOnCharP_interSlash (c :: rest) (fun e he => ⟨(h e he).1, (h e he).2.2⟩)
      (List.cons_ne_nil c rest)]
    refine List.filter_eq_self.mpr ?_
    intro e he
    simp only [Bool.and_eq_true, bne_iff_ne]
    exact ⟨(h e he).1, (h e he).2.1⟩

theorem pathComps_rebuild_abs (cs : List String)
    (h : ∀ c ∈ cs, c ≠ "" ∧ c ≠ "." ∧ '/' ∉ c.data) :
    pathComps ("/" ++ interSlash cs) = cs := by
  have hdata : (("/" : String) ++ interSlash cs).data = [] ++ '/' :: (interSlash cs).data := by
    rw [String.data_append, slash_data]
    rfl
  unfold pathComps splitOnCharP
  rw [hdata, splitOnCharAux_break '/' [] (interSlash cs).data [] (List.not_mem_nil '/')]
  have h2 := pathComps_rebuild_rel cs h
  unfold pathComps splitOnCharP at h2
  have hstep : List.filter (fun c => c != "" && c != ".")
      (String.mk (List.reverse ([] : List Char) ++ []) ::
        splitOnCharAux '/' (interSlash cs).data []) =
      List.filter (fun c => c != "" && c != ".")
        (splitOnCharAux '/' (interSlash cs).data []) := rfl
  rw [hstep]
  exact h2

theorem isAbs_slash_append (t : String) : isAbs ("/" ++ t) = true := by
  unfold isAbs
  rw [String.data_append, slash_data]
  rfl

/-! ## Lemmas: component normalisation -/

theorem normAux_mem : ∀ (cs acc : List String) (c : String), c ∈ normAux acc cs →
    c ∈ acc ∨ (c ∈ cs ∧ c ≠ "..") := by
  intro cs
  induction cs with
  | nil =>
    intro acc c hc
    rw [normAux_nil_eq] at hc
    exact Or.inl (List.mem_reverse.mp hc)
  | cons d rest ih =>
    intro acc c hc
    rw [normAux_cons_eq] at hc
    by_cases hd : d = ".."
    · rw [if_pos hd] at hc
      rcases ih acc.tail c hc with h | h
      · exact Or.inl (List.mem_of_mem_tail h)
      · exact Or.inr ⟨List.mem_cons_of_mem d h.1, h.2⟩
    · rw [if_neg hd] at hc
      rcases ih (d :: acc) c hc with h | h
      · rcases List.mem_cons.mp h with h | h
        · exact Or.inr ⟨h ▸ List.mem_cons_self d rest, h ▸ hd⟩
        · exact Or.inl h
      · exact Or.inr ⟨List.mem_cons_of_mem d h.1, h.2⟩

theorem normAux_push (cs : List String) (h : ∀ c ∈ cs, c ≠ "..") :
    ∀ (acc xs : List String), normAux acc (cs ++ xs) = normAux (cs.reverse ++ acc) xs := by
  induction cs with
  | nil => intro acc xs; simp
  | cons d rest ih =>
    intro acc xs
    rw [List.cons_append, normAux_cons_eq, if_neg (h d (List.mem_cons_self d rest))]
    rw [ih (fun c hc => h c (List.mem_cons_of_mem d hc)) (d :: acc) xs]
    simp [List.append_assoc]

theorem normAux_id (cs : List String) (h : ∀ c ∈ cs, c ≠ "..") :
    normAux [] cs = cs := by
  have h2 := normAux_push cs h [] []
  rw [List.append_nil, List.append_nil] at h2
  rw [h2, normAux_nil_eq]
  simp

theorem normAux_pops (ds : List String) (h : ∀ c ∈ ds, c ≠ "..") :
    ∀ (acc rest : List String),
      normAux acc (ds ++ List.replicate ds.length ".." ++ rest) = normAux acc rest := by
  induction ds with
  | nil => intro acc rest; simp
  | cons d ds2 ih =>
    intro acc rest
    have hd : d ≠ ".." := h d (List.mem_cons_self d ds2)
    have hds2 : ∀ c ∈ ds2, c ≠ ".." := fun c hc => h c (List.mem_cons_of_mem d hc)
    have hshape : (d :: ds2) ++ List.replicate (d :: ds2).length ".." ++ rest =
        d :: (ds2 ++ List.replicate ds2.length ".." ++ (".." :: rest)) := by
      rw [List.length_cons, List.replicate_succ']
      simp [List.append_assoc]
    rw [hshape, normAux_cons_eq, if_neg hd, ih hds2 (d :: acc) (".." :: rest)]
    rw [normAux_cons_eq, if_pos rfl]
    rfl


/-! ## Lemmas: canonical paths -/

theorem data_ne_nil_of_ne_empty (c : String) (h : c ≠ "") : c.data ≠ [] := by
  intro hd
  exact h (by rw [← strMk_data c, hd])

theorem normAux_clean (inp : List String)
    (hin : ∀ c ∈ inp, c ≠ "" ∧ c ≠ "." ∧ '/' ∉ c.data) :
    ∀ c ∈ normAux [] inp, CleanComp c := by
  intro c hc
  rcases normAux_mem inp [] c hc with h | ⟨hmem, hne⟩
  · exact absurd h (List.not_mem_nil c)
  · exact ⟨(hin c hmem).1, (hin c hmem).2.1, hne, (hin c hmem).2.2⟩

theorem mkCanon (cs : List String) (h : ∀ c ∈ cs, CleanComp c) :
    IsCanonP ("/" ++ interSlash cs) := by
  have hcs : ∀ c ∈ cs, c ≠ "" ∧ c ≠ "." ∧ '/' ∉ c.data :=
    fun c hc => ⟨(h c hc).1, (h c hc).2.1, (h c hc).2.2.2⟩
  refine ⟨isAbs_slash_append _, ?_, ?_⟩
  · rw [pathComps_rebuild_abs cs hcs]
    exact h
  · rw [pathComps_rebuild_abs cs hcs]

theorem resolveP_isCanon (cwd p : String) : IsCanonP (resolveP cwd p) := by
  unfold resolveP
  by_cases hp : isAbs p = true
  · rw [if_pos hp]
    refine mkCanon _ (normAux_clean _ ?_)
    intro c hc
    have := pathComps_mem_clean p c hc
    exact ⟨this.1, this.2.1, this.2.2.1⟩
  · rw [if_neg hp]
    refine mkCanon _ (normAux_clean _ ?_)
    intro c hc
    rcases List.mem_append.mp hc with h | h
    · have := pathComps_mem_clean cwd c h
      exact ⟨this.1, this.2.1, this.2.2.1⟩
    · have := pathComps_mem_clean p c h
      exact ⟨this.1, this.2.1, this.2.2.1⟩

theorem IsCanonP.comps_clean {s : String} (h : IsCanonP s) :
    ∀ c ∈ pathComps s, c ≠ "" ∧ c ≠ "." ∧ '/' ∉ c.data :=
  fun c hc => ⟨(h.2.1 c hc).1, (h.2.1 c hc).2.1, (h.2.1 c hc).2.2.2⟩

theorem IsCanonP.comps_noDD {s : String} (h : IsCanonP s) :
    ∀ c ∈ pathComps s, c ≠ ".." :=
  fun c hc => (h.2.1 c hc).2.2.1

theorem canon_resolveP_id (cwd s : String) (h : IsCanonP s) : resolveP cwd s = s := by
  unfold resolveP
  rw [if_pos h.1, normAux_id (pathComps s) h.comps_noDD]
  exact h.2.2.symm

theorem pathlibNorm_eq (s : String) : pathlibNorm s =
    (if isAbs s = true then "/" ++ interSlash (pathComps s)
     else (match pathComps s with
           | [] => "."
           | _ => interSlash (pathComps s))) := rfl

theorem parentP_eq (s : String) : parentP s =
    (if isAbs s = true then "/" ++ interSlash (pathComps s).dropLast
     else (match (pathComps s).dropLast with
           | [] => "."
           | _ => interSlash (pathComps s).dropLast)) := rfl

theorem canon_pathlibNorm_id (s : String) (h : IsCanonP s) : pathlibNorm s = s := by
  rw [pathlibNorm_eq, if_pos h.1]
  exact h.2.2.symm

theorem pathComps_parentP (s : String) (h : IsCanonP s) :
    pathComps (parentP s) = (pathComps s).dropLast := by
  rw [parentP_eq, if_pos h.1]
  exact pathComps_rebuild_abs _ (fun c hc => h.comps_clean c (List.dropLast_subset _ hc))

theorem parentP_isCanon (s : String) (h : IsCanonP s) : IsCanonP (parentP s) := by
  rw [parentP_eq, if_pos h.1]
  exact mkCanon _ (fun c hc => h.2.1 c (List.dropLast_subset _ hc))

theorem parentP_eq_of_canon (s : String) (h : IsCanonP s) :
    parentP s = "/" ++ interSlash (pathComps s).dropLast := by
  rw [parentP_eq, if_pos h.1]

/-- Characters of a resolved path are the separator or characters of the
inputs. -/
theorem resolveP_char_mem (cwd p : String) (ch : Char) (hch : ch ≠ '/')
    (h1 : ch ∉ cwd.data) (h2 : ch ∉ p.data) : ch ∉ (resolveP cwd p).data := by
  intro hmem
  have hsplit : ∀ (inp : List String), (∀ c ∈ inp, ∀ e ∈ c.data, e ∈ cwd.data ∨ e ∈ p.data) →
      ch ∉ ("/" ++ interSlash (normAux [] inp)).data := by
    intro inp hin hm
    rw [String.data_append, slash_data] at hm
    rcases List.mem_cons.mp (by simpa using hm) with h | h
    · exact hch h
    · rcases interSlash_data_mem _ ch h with h | ⟨c, hc, hchc⟩
      · exact hch h
      · rcases normAux_mem inp [] c hc with hx | hx
        · exact absurd hx (List.not_mem_nil c)
        · rcases hin c hx.1 ch hchc with h | h
          · exact h1 h
          · exact h2 h
  unfold resolveP at hmem
  by_cases hp : isAbs p = true
  · rw [if_pos hp] at hmem
    refine hsplit (pathComps p) ?_ hmem
    intro c hc e he
    exact Or.inr ((pathComps_mem_clean p c hc).2.2.2 e he)
  · rw [if_neg hp] at hmem
    refine hsplit (pathComps cwd ++ pathComps p) ?_ hmem
    intro c hc e he
    rcases List.mem_append.mp hc with h | h
    · exact Or.inl ((pathComps_mem_clean cwd c h).2.2.2 e he)
    · exact Or.inr ((pathComps_mem_clean p c h).2.2.2 e he)

theorem stripFrag_id (s : String) (h : '#' ∉ s.data) : stripFrag s = s := by
  unfold stripFrag
  rw [List.takeWhile_eq_self_iff.mpr ?_, strMk_data]
  intro a ha
  simp only [decide_eq_true_eq]
  intro hc
  exact h (hc ▸ ha)

theorem stripFrag_noHash (s : String) : '#' ∉ (stripFrag s).data := by
  intro h
  have := List.mem_takeWhile_imp h
  simp at this

/-! ## Lemmas: relative paths -/

theorem commonLen_cons_eq (x y : String) (xs ys : List String) :
    commonLen (x :: xs) (y :: ys) = if x = y then commonLen xs ys + 1 else 0 := rfl

theorem commonLen_spec : ∀ (xs ys : List String), ∃ cs xs2 ys2,
    xs = cs ++ xs2 ∧ ys = cs ++ ys2 ∧ commonLen xs ys = cs.length := by
  intro xs
  induction xs with
  | nil =>
    intro ys
    refine ⟨[], [], ys, rfl, rfl, ?_⟩
    cases ys <;> rfl
  | cons x xs2 ih =>
    intro ys
    cases ys with
    | nil => exact ⟨[], x :: xs2, [], rfl, rfl, rfl⟩
    | cons y ys2 =>
      by_cases hxy : x = y
      · obtain ⟨cs, a2, b2, h1, h2, h3⟩ := ih ys2
        refine ⟨x :: cs, a2, b2, by rw [List.cons_append, ← h1], ?_, ?_⟩
        · rw [List.cons_append, ← h2, hxy]
        · rw [commonLen_cons_eq, if_pos hxy, h3]
          rfl
      · exact ⟨[], x :: xs2, y :: ys2, rfl, rfl, by rw [commonLen_cons_eq, if_neg hxy]; rfl⟩

theorem isAbs_interSlash (c : String) (rest : List String) (hc : c ≠ "")
    (hslash : '/' ∉ c.data) : isAbs (interSlash (c :: rest)) = false := by
  have hdata : ∃ t, (interSlash (c :: rest)).data = c.data ++ t := by
    cases rest with
    | nil => exact ⟨[], by simp [interSlash]⟩
    | cons d rest2 =>
      refine ⟨'/' :: (interSlash (d :: rest2)).data, ?_⟩
      show ((c ++ "/") ++ interSlash (d :: rest2)).data = _
      rw [String.data_append, String.data_append, slash_data]
      simp
  obtain ⟨t, ht⟩ := hdata
  unfold isAbs
  rw [ht]
  rcases he : c.data with _ | ⟨ch, chs⟩
  · exact absurd he (data_ne_nil_of_ne_empty c hc)
  · have hch : ch ≠ '/' := fun hx => hslash (by rw [he, hx]; exact List.mem_cons_self _ _)
    simp [hch]

theorem resolveP_dot (S : String) (hS : IsCanonP S) : resolveP S "." = S := by
  have habs : isAbs "." = false := rfl
  unfold resolveP
  rw [if_neg (by rw [habs]; exact Bool.false_ne_true)]
  have hdot : pathComps "." = [] := rfl
  rw [hdot, List.append_nil, normAux_id (pathComps S) hS.comps_noDD]
  exact hS.2.2.symm

theorem relpathP_eq (cwd target start : String) : relpathP cwd target start =
    (match List.replicate ((pathComps (resolveP cwd start)).length -
        commonLen (pathComps (resolveP cwd target)) (pathComps (resolveP cwd start))) ".." ++
        (pathComps (resolveP cwd target)).drop
          (commonLen (pathComps (resolveP cwd target)) (pathComps (resolveP cwd start))) with
     | [] => "."
     | rel => interSlash rel) := rfl

theorem interSlash_cons_data (c : String) (rest : List String) :
    ∃ t, (interSlash (c :: rest)).data = c.data ++ t := by
  cases rest with
  | nil => exact ⟨[], by simp [interSlash]⟩
  | cons d rest2 =>
    refine ⟨'/' :: (interSlash (d :: rest2)).data, ?_⟩
    show ((c ++ "/") ++ interSlash (d :: rest2)).data = _
    rw [String.data_append, String.data_append, slash_data]
    simp

/-- Resolving the relative path produced by `relpathP` against the start
path recovers the target, for canonical absolute target and start. -/
theorem relpathP_resolveP (cwd T S : String) (hT : IsCanonP T) (hS : IsCanonP S) :
    resolveP S (relpathP cwd T S) = T := by
  obtain ⟨cs, tl2, sl2, htl, hsl, hlen⟩ := commonLen_spec (pathComps T) (pathComps S)
  have hresT : pathComps (resolveP cwd T) = pathComps T := by rw [canon_resolveP_id cwd T hT]
  have hresS : pathComps (resolveP cwd S) = pathComps S := by rw [canon_resolveP_id cwd S hS]
  have hlen2 : (pathComps S).length - commonLen (pathComps T) (pathComps S) = sl2.length := by
    rw [hlen, hsl, List.length_append, Nat.add_sub_cancel_left]
  have hdrop : (pathComps T).drop (commonLen (pathComps T) (pathComps S)) = tl2 := by
    rw [hlen, htl, List.drop_left]
  have hrel : relpathP cwd T S =
      (match List.replicate sl2.length ".." ++ tl2 with
       | [] => "."
       | rel => interSlash rel) := by
    rw [relpathP_eq, hresT, hresS, hlen2, hdrop]
  have hslmem : ∀ e ∈ sl2, e ∈ pathComps S := fun e he => hsl ▸ List.mem_append_right cs he
  have htlmem : ∀ e ∈ tl2, e ∈ pathComps T := fun e he => htl ▸ List.mem_append_right cs he
  have hcsmem : ∀ e ∈ cs, e ∈ pathComps S := fun e he => hsl ▸ List.mem_append_left sl2 he
  rcases hcase : List.replicate sl2.length ".." ++ tl2 with _ | ⟨c, rest⟩
  · obtain ⟨hrep, htl2⟩ := List.append_eq_nil.mp hcase
    have hsl2 : sl2 = [] := by
      cases sl2 with
      | nil => rfl
      | cons a b => simp at hrep
    rw [hrel, hcase, resolveP_dot S hS]
    have hcomps : pathComps S = pathComps T := by rw [htl, hsl, htl2, hsl2]
    calc S = "/" ++ interSlash (pathComps S) := hS.2.2
    _ = "/" ++ interSlash (pathComps T) := by rw [hcomps]
    _ = T := hT.2.2.symm
  · rw [hrel, hcase]
    have hmem : ∀ e ∈ (c :: rest : List String), e = ".." ∨ e ∈ pathComps T := by
      intro e he
      rw [← hcase] at he
      rcases List.mem_append.mp he with h | h
      · exact Or.inl (List.eq_of_mem_replicate h)
      · exact Or.inr (htlmem e h)
    have hprops : ∀ e ∈ (c :: rest : List String), e ≠ "" ∧ e ≠ "." ∧ '/' ∉ e.data := by
      intro e he
      rcases hmem e he with h | h
      · subst h
        refine ⟨by decide, by decide, by decide⟩
      · exact hT.comps_clean e h
    have hcne : c ≠ "" := (hprops c (List.mem_cons_self c rest)).1
    have hcslash : '/' ∉ c.data := (hprops c (List.mem_cons_self c rest)).2.2
    have habs : ¬ (isAbs (interSlash (c :: rest)) = true) := by
      rw [isAbs_interSlash c rest hcne hcslash]
      exact Bool.false_ne_true
    unfold resolveP
    rw [if_neg habs, pathComps_rebuild_rel (c :: rest) hprops, ← hcase, hsl]
    have hcsDD : ∀ e ∈ cs, e ≠ ".." := fun e he => hS.comps_noDD e (hcsmem e he)
    have hslDD : ∀ e ∈ sl2, e ≠ ".." := fun e he => hS.comps_noDD e (hslmem e he)
    have htlDD : ∀ e ∈ tl2, e ≠ ".." := fun e he => hT.comps_noDD e (htlmem e he)
    have hassoc : cs ++ sl2 ++ (List.replicate sl2.length ".." ++ tl2) =
        cs ++ (sl2 ++ List.replicate sl2.length ".." ++ tl2) := by
      simp [List.append_assoc]
    rw [hassoc, normAux_push cs hcsDD [] _, normAux_pops sl2 hslDD _ tl2, List.append_nil]
    have h5 := normAux_push tl2 htlDD cs.reverse []
    rw [List.append_nil] at h5
    rw [h5, normAux_nil_eq]
    have h6 : (tl2.reverse ++ cs.reverse).reverse = cs ++ tl2 := by simp
    rw [h6, ← htl]
    exact hT.2.2.symm

/-- Characters of the relative path are the separator, the dot, or
characters of the resolved target. -/
theorem relpathP_char_not_mem (cwd T S : String) (ch : Char) (h1 : ch ≠ '/')
    (h2 : ch ≠ '.') (h3 : ch ∉ (resolveP cwd T).data) :
    ch ∉ (relpathP cwd T S).data := by
  rw [relpathP_eq]
  rcases hcase : List.replicate ((pathComps (resolveP cwd S)).length -
      commonLen (pathComps (resolveP cwd T)) (pathComps (resolveP cwd S))) ".." ++
      (pathComps (resolveP cwd T)).drop
        (commonLen (pathComps (resolveP cwd T)) (pathComps (resolveP cwd S))) with _ | ⟨c, rest⟩
  · intro hm
    rcases List.mem_singleton.mp hm with h
    exact h2 h
  · intro hm
    rcases interSlash_data_mem (c :: rest) ch hm with h | ⟨e, he, hche⟩
    · exact h1 h
    · rw [← hcase] at he
      rcases List.mem_append.mp he with h | h
      · have : e = ".." := List.eq_of_mem_replicate h
        subst this
        rcases List.mem_cons.mp hche with h | h
        · exact h2 h
        · rcases List.mem_singleton.mp h with h
          exact h2 h
      · have hmem := List.drop_subset _ _ h
        exact h3 ((pathComps_mem_clean (resolveP cwd T) e hmem).2.2.2 ch hche)

/-- The relative path is nonempty and does not start with the root marker. -/
theorem relpathP_head (cwd T S : String) :
    (relpathP cwd T S).data ≠ [] ∧ (relpathP cwd T S).data.head? ≠ some '/' := by
  rw [relpathP_eq]
  rcases hcase : List.replicate ((pathComps (resolveP cwd S)).length -
      commonLen (pathComps (resolveP cwd T)) (pathComps (resolveP cwd S))) ".." ++
      (pathComps (resolveP cwd T)).drop
        (commonLen (pathComps (resolveP cwd T)) (pathComps (resolveP cwd S))) with _ | ⟨c, rest⟩
  · exact ⟨by decide, by decide⟩
  · have hcmem : c ∈ List.replicate ((pathComps (resolveP cwd S)).length -
        commonLen (pathComps (resolveP cwd T)) (pathComps (resolveP cwd S))) ".." ++
        (pathComps (resolveP cwd T)).drop
          (commonLen (pathComps (resolveP cwd T)) (pathComps (resolveP cwd S))) := by
      rw [hcase]
      exact List.mem_cons_self c rest
    have hc : c ≠ "" ∧ '/' ∉ c.data := by
      rcases List.mem_append.mp hcmem with h | h
      · have : c = ".." := List.eq_of_mem_replicate h
        subst this
        exact ⟨by decide, by decide⟩
      · have hmem := List.drop_subset _ _ h
        have := pathComps_mem_clean (resolveP cwd T) c hmem
        exact ⟨this.1, this.2.2.1⟩
    obtain ⟨t, ht⟩ := interSlash_cons_data c rest
    rcases he : c.data with _ | ⟨ch0, chs⟩
    · exact absurd he (data_ne_nil_of_ne_empty c hc.1)
    · constructor
      · rw [ht, he]
        simp
      · rw [ht, he]
        have : ch0 ≠ '/' := fun hx => hc.2 (by rw [he, hx]; exact List.mem_cons_self _ _)
        simp [this]

/-! ## Lemmas: the link scanner -/

theorem scanTargets_nil_eq (st : ScanSt) : scanTargets st [] = [] := by
  cases st <;> rfl

theorem scanTargets_outside_cons (c : Char) (rest : List Char) :
    scanTargets .outside (c :: rest) =
      if c = ']' then scanTargets .seenClose rest else scanTargets .outside rest := rfl

theorem scanTargets_seenClose_cons (c : Char) (rest : List Char) :
    scanTargets .seenClose (c :: rest) =
      if c = '(' then scanTargets (.inside []) rest
      else if c = ']' then scanTargets .seenClose rest
      else scanTargets .outside rest := rfl

theorem scanTargets_inside_cons (acc : List Char) (c : Char) (rest : List Char) :
    scanTargets (.inside acc) (c :: rest) =
      if c = ')' then String.mk acc.reverse :: scanTargets .outside rest
      else scanTargets (.inside (c :: acc)) rest := rfl

theorem scanState_nil_eq (st : ScanSt) : scanState st [] = st := by
  cases st <;> rfl

theorem scanState_outside_cons (c : Char) (rest : List Char) :
    scanState .outside (c :: rest) =
      scanState (if c = ']' then .seenClose else .outside) rest := rfl

theorem scanState_seenClose_cons (c : Char) (rest : List Char) :
    scanState .seenClose (c :: rest) =
      scanState (if c = '(' then .inside []
        else if c = ']' then .seenClose else .outside) rest := rfl

theorem scanState_inside_cons (acc : List Char) (c : Char) (rest : List Char) :
    scanState (.inside acc) (c :: rest) =
      scanState (if c = ')' then .outside else .inside (c :: acc)) rest := rfl

theorem scanState_append : ∀ (xs ys : List Char) (st : ScanSt),
    scanState st (xs ++ ys) = scanState (scanState st xs) ys := by
  intro xs
  induction xs with
  | nil => intro ys st; rw [List.nil_append, scanState_nil_eq]
  | cons c rest ih =>
    intro ys st
    cases st with
    | outside =>
      rw [List.cons_append, scanState_outside_cons, scanState_outside_cons, ih]
    | seenClose =>
      rw [List.cons_append, scanState_seenClose_cons, scanState_seenClose_cons, ih]
    | inside acc =>
      rw [List.cons_append, scanState_inside_cons, scanState_inside_cons, ih]

theorem scanTargets_append : ∀ (xs ys : List Char) (st : ScanSt),
    scanTargets st (xs ++ ys) = scanTargets st xs ++ scanTargets (scanState st xs) ys := by
  intro xs
  induction xs with
  | nil =>
    intro ys st
    rw [List.nil_append, scanTargets_nil_eq, scanState_nil_eq, List.nil_append]
  | cons c rest ih =>
    intro ys st
    cases st with
    | outside =>
      rw [List.cons_append, scanTargets_outside_cons, scanTargets_outside_cons,
        scanState_outside_cons]
      by_cases hc : c = ']'
      · rw [if_pos hc, if_pos hc, if_pos hc, ih]
      · rw [if_neg hc, if_neg hc, if_neg hc, ih]
    | seenClose =>
      rw [List.cons_append, scanTargets_seenClose_cons, scanTargets_seenClose_cons,
        scanState_seenClose_cons]
      by_cases hc : c = '('
      · rw [if_pos hc, if_pos hc, if_pos hc, ih]
      · by_cases hc2 : c = ']'
        · rw [if_neg hc, if_neg hc, if_neg hc, if_pos hc2, if_pos hc2, if_pos hc2, ih]
        · rw [if_neg hc, if_neg hc, if_neg hc, if_neg hc2, if_neg hc2, if_neg hc2, ih]
    | inside acc =>
      rw [List.cons_append, scanTargets_inside_cons, scanTargets_inside_cons,
        scanState_inside_cons]
      by_cases hc : c = ')'
      · rw [if_pos hc, if_pos hc, if_pos hc, ih, List.cons_append]
      · rw [if_neg hc, if_neg hc, if_neg hc, ih]

theorem scan_outside_no_close (xs : List Char) (h : ']' ∉ xs) :
    scanTargets .outside xs = [] ∧ scanState .outside xs = .outside := by
  induction xs with
  | nil => exact ⟨rfl, rfl⟩
  | cons c rest ih =>
    have hc : c ≠ ']' := fun hx => h (hx ▸ List.mem_cons_self c rest)
    have hrest : ']' ∉ rest := fun hx => h (List.mem_cons_of_mem c hx)
    rw [scanTargets_outside_cons, scanState_outside_cons, if_neg hc, if_neg hc]
    exact ih hrest

theorem scan_inside_no_paren (xs : List Char) (h : ')' ∉ xs) :
    ∀ acc, scanTargets (.inside acc) xs = [] ∧
      scanState (.inside acc) xs = .inside (xs.reverse ++ acc) := by
  induction xs with
  | nil => intro acc; exact ⟨rfl, by rw [scanState_nil_eq]; simp⟩
  | cons c rest ih =>
    intro acc
    have hc : c ≠ ')' := fun hx => h (hx ▸ List.mem_cons_self c rest)
    have hrest : ')' ∉ rest := fun hx => h (List.mem_cons_of_mem c hx)
    rw [scanTargets_inside_cons, scanState_inside_cons, if_neg hc, if_neg hc]
    refine ⟨(ih hrest (c :: acc)).1, ?_⟩
    rw [(ih hrest (c :: acc)).2]
    simp

/-- Scanning one rendered backlink entry yields exactly its target and
returns the scanner to the outside state. -/
theorem entry_scan (t r : String) (ht : ']' ∉ t.data) (hr : ')' ∉ r.data) :
    scanTargets .outside (entryLine t r).data = [r] ∧
      scanState .outside (entryLine t r).data = .outside := by
  have hdata : (entryLine t r).data =
      '-' :: ' ' :: '[' :: (t.data ++ (']' :: '(' :: (r.data ++ ')' :: '\n' :: []))) := by
    show (((("- [" ++ t) ++ "](") ++ r) ++ ")\n").data = _
    rw [String.data_append, String.data_append, String.data_append, String.data_append]
    rw [show ("- [" : String).data = ['-', ' ', '['] from rfl,
      show ("](" : String).data = [']', '('] from rfl,
      show (")\n" : String).data = [')', '\n'] from rfl]
    simp
  have h2 := scan_outside_no_close t.data ht
  have h3 := scan_inside_no_paren r.data hr []
  constructor
  · rw [hdata, scanTargets_outside_cons, if_neg (by decide : ¬ (('-' : Char) = ']')),
      scanTargets_outside_cons, if_neg (by decide : ¬ ((' ' : Char) = ']')),
      scanTargets_outside_cons, if_neg (by decide : ¬ (('[' : Char) = ']'))]
    rw [scanTargets_append, h2.1, h2.2, List.nil_append]
    rw [scanTargets_outside_cons, if_pos rfl, scanTargets_seenClose_cons, if_pos rfl]
    rw [scanTargets_append, h3.1, h3.2, List.nil_append, List.append_nil]
    rw [scanTargets_inside_cons, if_pos rfl]
    rw [scanTargets_outside_cons, if_neg (by decide : ¬ (('\n' : Char) = ']')),
      scanTargets_nil_eq, List.reverse_reverse, strMk_data]
  · rw [hdata, scanState_outside_cons, if_neg (by decide : ¬ (('-' : Char) = ']')),
      scanState_outside_cons, if_neg (by decide : ¬ ((' ' : Char) = ']')),
      scanState_outside_cons, if_neg (by decide : ¬ (('[' : Char) = ']'))]
    rw [scanState_append, h2.2]
    rw [scanState_outside_cons, if_pos rfl, scanState_seenClose_cons, if_pos rfl]
    rw [scanState_append, h3.2, List.append_nil]
    rw [scanState_inside_cons, if_pos rfl, scanState_outside_cons,
      if_neg (by decide : ¬ (('\n' : Char) = ']')), scanState_nil_eq]

theorem marker_scan :
    scanTargets .outside marker.data = [] ∧ scanState .outside marker.data = .outside := by
  refine scan_outside_no_close marker.data ?_
  decide

/-! ## Lemmas: marker search and truncation -/

theorem findIdxP_nil_eq (pat : List Char) :
    findIdxP pat [] = if pat.isPrefixOf ([] : List Char) then some 0 else none := rfl

theorem findIdxP_cons_eq (pat : List Char) (c : Char) (rest : List Char) :
    findIdxP pat (c :: rest) =
      if pat.isPrefixOf (c :: rest) then some 0
      else (findIdxP pat rest).map (· + 1) := rfl

theorem findIdxP_some_spec (pat : List Char) : ∀ (s : List Char) (i : Nat),
    findIdxP pat s = some i →
      pat.isPrefixOf (s.drop i) = true ∧ ∀ j, j < i → pat.isPrefixOf (s.drop j) = false := by
  intro s
  induction s with
  | nil =>
    intro i h
    rw [findIdxP_nil_eq] at h
    rcases hb : pat.isPrefixOf ([] : List Char) with _ | _
    · rw [hb] at h; simp at h
    · rw [hb, if_pos rfl] at h
      have : i = 0 := (Option.some.inj h).symm
      subst this
      exact ⟨hb, fun j hj => absurd hj (Nat.not_lt_zero j)⟩
  | cons c rest ih =>
    intro i h
    rw [findIdxP_cons_eq] at h
    rcases hb : pat.isPrefixOf (c :: rest) with _ | _
    · rw [hb, if_neg (by simp)] at h
      rcases Option.map_eq_some'.mp h with ⟨i2, hi2, hadd⟩
      obtain ⟨h1, h2⟩ := ih i2 hi2
      subst hadd
      refine ⟨by simpa using h1, ?_⟩
      intro j hj
      cases j with
      | zero => simpa using hb
      | succ j2 =>
        have : j2 < i2 := Nat.lt_of_succ_lt_succ hj
        simpa using h2 j2 this
    · rw [hb, if_pos rfl] at h
      have : i = 0 := (Option.some.inj h).symm
      subst this
      exact ⟨by simpa using hb, fun j hj => absurd hj (Nat.not_lt_zero j)⟩

theorem findIdxP_some_of (pat : List Char) : ∀ (s : List Char) (i : Nat),
    pat.isPrefixOf (s.drop i) = true →
    (∀ j, j < i → pat.isPrefixOf (s.drop j) = false) →
    i ≤ s.length →
    findIdxP pat s = some i := by
  intro s
  induction s with
  | nil =>
    intro i hpre _ hle
    have : i = 0 := Nat.le_zero.mp hle
    subst this
    rw [findIdxP_nil_eq, if_pos (by simpa using hpre)]
  | cons c rest ih =>
    intro i hpre hmin hle
    cases i with
    | zero =>
      rw [findIdxP_cons_eq, if_pos (by simpa using hpre)]
    | succ i2 =>
      have hb : pat.isPrefixOf (c :: rest) = false := by
        simpa using hmin 0 (Nat.succ_pos i2)
      rw [findIdxP_cons_eq, hb, if_neg (by simp)]
      rw [ih i2 (by simpa using hpre)
        (fun j hj => by simpa using hmin (j + 1) (Nat.succ_lt_succ hj))
        (by simp only [List.length_cons] at hle; omega)]
      rfl

theorem marker_data_ne_nil : marker.data ≠ [] := by decide

/-- A marker-clean content keeps its first marker occurrence at its own
length under any extension of the appended block. -/
theorem findIdxP_mclean_ext (c : String) (h : MClean c) (e : List Char) :
    findIdxP marker.data (c.data ++ marker.data ++ e) = some c.data.length := by
  obtain ⟨hpre, hmin⟩ := findIdxP_some_spec marker.data (c.data ++ marker.data) c.data.length h
  apply findIdxP_some_of
  · rw [List.append_assoc, List.drop_left]
    rw [List.isPrefixOf_iff_prefix]
    exact ⟨e, rfl⟩
  · intro j hj
    rcases hb : marker.data.isPrefixOf ((c.data ++ marker.data ++ e).drop j) with _ | _
    · rfl
    · exfalso
      rw [List.isPrefixOf_iff_prefix] at hb
      have hdrop : (c.data ++ marker.data ++ e).drop j = (c.data ++ marker.data).drop j ++ e := by
        rw [List.drop_append_of_le_length]
        rw [List.length_append]
        omega
      rw [hdrop] at hb
      have hlen : marker.data.length ≤ ((c.data ++ marker.data).drop j).length := by
        rw [List.length_drop, List.length_append]
        omega
      have hbb : marker.data <+: (c.data ++ marker.data).drop j := by
        rw [List.prefix_iff_eq_take]
        rw [List.prefix_iff_eq_take] at hb
        exact hb.trans (List.take_append_of_le_length hlen)
      have h2 : marker.data.isPrefixOf ((c.data ++ marker.data).drop j) = true :=
        List.isPrefixOf_iff_prefix.mpr hbb
      exact Bool.false_ne_true ((hmin j hj).symm.trans h2)
  · rw [List.length_append, List.length_append]
    omega

theorem truncAtMarker_eq (s : String) : truncAtMarker s =
    (match findIdxP marker.data s.data with
     | none => s
     | some i => String.mk (s.data.take i)) := rfl

/-- The truncation keeps a prefix of the content. -/
theorem truncAtMarker_prefix (s : String) : ∃ t, s.data = (truncAtMarker s).data ++ t := by
  rw [truncAtMarker_eq]
  rcases hf : findIdxP marker.data s.data with _ | i
  · exact ⟨[], by simp⟩
  · exact ⟨s.data.drop i, by simp⟩

/-- Truncating a marker-clean content with a freshly appended block recovers
the content exactly. -/
theorem truncAtMarker_restore (c e : String) (h : MClean c) :
    truncAtMarker (c ++ marker ++ e) = c := by
  have hdata : (c ++ marker ++ e).data = c.data ++ marker.data ++ e.data := by
    rw [String.data_append, String.data_append]
  rw [truncAtMarker_eq, hdata, findIdxP_mclean_ext c h e.data]
  show String.mk ((c.data ++ marker.data ++ e.data).take c.data.length) = c
  rw [List.append_assoc, List.take_left, strMk_data]

/-! ## Lemmas: the filesystem -/

theorem lookup_cons_eqFS (k p : String) (v : String) (rest : FS) :
    List.lookup p ((k, v) :: rest) = if k = p then some v else List.lookup p rest := by
  rw [List.lookup_cons (a := p)]
  by_cases h : k = p
  · rw [if_pos h, show (p == k) = true from beq_iff_eq.mpr h.symm]
  · rw [if_neg h, show (p == k) = false from beq_eq_false_iff_ne.mpr (fun e => h e.symm)]

theorem readFS_writeFS_self (fs : FS) (p c : String) : readFS (writeFS fs p c) p = c := by
  induction fs with
  | nil => simp [writeFS, readFS, List.lookup]
  | cons kv rest ih =>
    obtain ⟨k, v⟩ := kv
    show readFS (if k = p then (p, c) :: rest else (k, v) :: writeFS rest p c) p = c
    by_cases h : k = p
    · rw [if_pos h]
      unfold readFS
      rw [lookup_cons_eqFS p p c rest, if_pos rfl]
      rfl
    · rw [if_neg h]
      unfold readFS
      rw [lookup_cons_eqFS k p v _, if_neg h]
      exact ih

theorem readFS_writeFS_ne (fs : FS) (p q c : String) (h : p ≠ q) :
    readFS (writeFS fs p c) q = readFS fs q := by
  induction fs with
  | nil =>
    show readFS [(p, c)] q = readFS [] q
    unfold readFS
    rw [lookup_cons_eqFS p q c [], if_neg h]
  | cons kv rest ih =>
    obtain ⟨k, v⟩ := kv
    show readFS (if k = p then (p, c) :: rest else (k, v) :: writeFS rest p c) q =
      readFS ((k, v) :: rest) q
    by_cases hk : k = p
    · rw [if_pos hk]
      unfold readFS
      rw [lookup_cons_eqFS p q c rest, if_neg h, hk, lookup_cons_eqFS p q v rest, if_neg h]
    · rw [if_neg hk]
      unfold readFS
      rw [lookup_cons_eqFS k q v (writeFS rest p c), lookup_cons_eqFS k q v rest]
      by_cases hq : k = q
      · rw [if_pos hq, if_pos hq]
      · rw [if_neg hq, if_neg hq]
        exact ih

theorem writeFS_writeFS (fs : FS) (p a b : String) :
    writeFS (writeFS fs p a) p b = writeFS fs p b := by
  induction fs with
  | nil => simp [writeFS]
  | cons kv rest ih =>
    obtain ⟨k, v⟩ := kv
    show writeFS (if k = p then (p, a) :: rest else (k, v) :: writeFS rest p a) p b =
      (if k = p then (p, b) :: rest else (k, v) :: writeFS rest p b)
    by_cases h : k = p
    · rw [if_pos h]
      show (if p = p then (p, b) :: rest else _) = _
      rw [if_pos rfl, if_pos h]
    · rw [if_neg h]
      show (if k = p then _ else (k, v) :: writeFS (writeFS rest p a) p b) = _
      rw [if_neg h, if_neg h, ih]

theorem writeFS_id (fs : FS) (p : String) (h : p ∈ fs.map Prod.fst) :
    writeFS fs p (readFS fs p) = fs := by
  induction fs with
  | nil => simp at h
  | cons kv rest ih =>
    obtain ⟨k, v⟩ := kv
    show (if k = p then (p, readFS ((k, v) :: rest) p) :: rest
      else (k, v) :: writeFS rest p (readFS ((k, v) :: rest) p)) = (k, v) :: rest
    by_cases hk : k = p
    · rw [if_pos hk]
      unfold readFS
      rw [lookup_cons_eqFS k p v rest, if_pos hk]
      rw [← hk]
      rfl
    · rw [if_neg hk]
      unfold readFS
      rw [lookup_cons_eqFS k p v rest, if_neg hk]
      have hp : p ∈ rest.map Prod.fst := by
        rw [List.map_cons] at h
        rcases List.mem_cons.mp h with h2 | h2
        · exact absurd h2.symm hk
        · exact h2
      rw [show (List.lookup p rest).getD "" = readFS rest p from rfl, ih hp]

theorem mem_keys_writeFS (fs : FS) (p c q : String) (h : q ∈ fs.map Prod.fst ∨ q = p) :
    q ∈ (writeFS fs p c).map Prod.fst := by
  induction fs with
  | nil =>
    rcases h with h | h
    · simp at h
    · simp [writeFS, h]
  | cons kv rest ih =>
    obtain ⟨k, v⟩ := kv
    show q ∈ (if k = p then (p, c) :: rest else (k, v) :: writeFS rest p c).map Prod.fst
    by_cases hk : k = p
    · rw [if_pos hk]
      rcases h with h | h
      · rw [List.map_cons] at h
        rcases List.mem_cons.mp h with h2 | h2
        · rw [List.map_cons, List.mem_cons]
          exact Or.inl (by rw [h2]; exact hk)
        · rw [List.map_cons, List.mem_cons]
          exact Or.inr h2
      · rw [List.map_cons, List.mem_cons]
        exact Or.inl h
    · rw [if_neg hk]
      rcases h with h | h
      · rw [List.map_cons] at h
        rcases List.mem_cons.mp h with h2 | h2
        · rw [List.map_cons, List.mem_cons]
          exact Or.inl h2
        · rw [List.map_cons, List.mem_cons]
          exact Or.inr (ih (Or.inl h2))
      · rw [List.map_cons, List.mem_cons]
        exact Or.inr (ih (Or.inr h))

theorem lookup_cons_eqG {β : Type} (k p : String) (v : β) (rest : List (String × β)) :
    List.lookup p ((k, v) :: rest) = if k = p then some v else List.lookup p rest := by
  rw [List.lookup_cons (a := p)]
  by_cases h : k = p
  · rw [if_pos h, show (p == k) = true from beq_iff_eq.mpr h.symm]
  · rw [if_neg h, show (p == k) = false from beq_eq_false_iff_ne.mpr (fun e => h e.symm)]

theorem lookup_mem {β : Type} (l : List (String × β)) (k : String) (v : β)
    (h : l.lookup k = some v) : (k, v) ∈ l := by
  induction l with
  | nil => simp [List.lookup] at h
  | cons kv rest ih =>
    obtain ⟨k2, v2⟩ := kv
    rw [lookup_cons_eqG k2 k v2 rest] at h
    by_cases hk : k2 = k
    · rw [if_pos hk] at h
      have hv : v2 = v := Option.some.inj h
      rw [← hv, ← hk]
      exact List.mem_cons_self _ _
    · rw [if_neg hk] at h
      exact List.mem_cons_of_mem _ (ih h)

theorem lookup_isSome_of_mem_keys {β : Type} (l : List (String × β)) (k : String)
    (h : k ∈ l.map Prod.fst) : (l.lookup k).isSome = true := by
  induction l with
  | nil => simp at h
  | cons kv rest ih =>
    obtain ⟨k2, v2⟩ := kv
    rw [lookup_cons_eqG k2 k v2 rest]
    by_cases hk : k2 = k
    · rw [if_pos hk]
      rfl
    · rw [if_neg hk]
      apply ih
      rw [List.map_cons] at h
      rcases List.mem_cons.mp h with h2 | h2
      · exact absurd h2.symm hk
      · exact h2

/-! ## Lemmas: link extraction and backlink sets -/

theorem containsP {α : Type} [BEq α] [LawfulBEq α] (l : List α) (a : α) :
    l.contains a = true ↔ a ∈ l := List.elem_iff

theorem contentLinks_as_resolved (cwd : String) (f : MarkdownFile) (c : String) :
    contentLinks cwd f c = resolvedFilter cwd f (scanTargets .outside c.data) := rfl

/-- Splitting a content at a scanner-neutral prefix splits its links. -/
theorem contentLinks_data_split (cwd : String) (f : MarkdownFile) (s core : String)
    (t : List Char) (hdata : s.data = core.data ++ t)
    (hscan : scanState .outside core.data = .outside) :
    contentLinks cwd f s =
      contentLinks cwd f core ++ resolvedFilter cwd f (scanTargets .outside t) := by
  rw [contentLinks_as_resolved, contentLinks_as_resolved, hdata, scanTargets_append, hscan]
  unfold resolvedFilter
  rw [List.filterMap_append, List.filter_append]

/-- Resolving a rendered entry's relative target recovers the backlink key. -/
theorem resolve_rel_entry (cwd : String) (f : MarkdownFile) (bk : String)
    (hf : IsCanonP f.path) (hbk : IsCanonP bk) (hhash : '#' ∉ bk.data) :
    get_absolute_path cwd f (some (relpathP cwd bk (parentP f.path))) = some bk := by
  obtain ⟨hne, hhead⟩ := relpathP_head cwd bk (parentP f.path)
  show (if (relpathP cwd bk (parentP f.path)).data.length = 0 then none
    else if (relpathP cwd bk (parentP f.path)).data.head? = some '/' then
      some (pathlibNorm (relpathP cwd bk (parentP f.path)))
    else some (resolveP (resolveP cwd (parentP f.path))
      (stripFrag (relpathP cwd bk (parentP f.path))))) = some bk
  rw [if_neg (by rw [List.length_eq_zero]; exact hne), if_neg hhead]
  have hnohash : '#' ∉ (relpathP cwd bk (parentP f.path)).data := by
    apply relpathP_char_not_mem cwd bk (parentP f.path) '#' (by decide) (by decide)
    rw [canon_resolveP_id cwd bk hbk]
    exact hhash
  rw [stripFrag_id _ hnohash, canon_resolveP_id cwd (parentP f.path) (parentP_isCanon _ hf)]
  rw [relpathP_resolveP cwd bk (parentP f.path) hbk (parentP_isCanon _ hf)]

/-- Scanning the rendered entry lines yields exactly the relative targets,
ending outside. -/
theorem entryLines_scan (cwd : String) (dir : MarkdownDirectory) (f : MarkdownFile) :
    ∀ (B : List String), (∀ bk ∈ B, TameKey cwd dir f bk) →
      scanTargets .outside (strConcat (entryLines cwd dir f B)).data =
        B.map (fun bk => relpathP cwd bk (parentP f.path)) ∧
      scanState .outside (strConcat (entryLines cwd dir f B)).data = .outside := by
  intro B
  induction B with
  | nil =>
    intro _
    exact ⟨rfl, rfl⟩
  | cons bk rest ih =>
    intro hB
    have hbk := hB bk (List.mem_cons_self bk rest)
    have hrest := fun x hx => hB x (List.mem_cons_of_mem bk hx)
    have hentry := entry_scan ((dir.files.lookup bk).getD defaultFile).heading
      (relpathP cwd bk (parentP f.path)) hbk.2.2.2.1 hbk.2.2.2.2
    have hconcat : strConcat (entryLines cwd dir f (bk :: rest)) =
        entryLine ((dir.files.lookup bk).getD defaultFile).heading
          (relpathP cwd bk (parentP f.path)) ++ strConcat (entryLines cwd dir f rest) := rfl
    constructor
    · rw [hconcat, String.data_append, scanTargets_append, hentry.1, hentry.2, (ih hrest).1]
      rfl
    · rw [hconcat, String.data_append, scanState_append, hentry.2, (ih hrest).2]

/-- Resolving the rendered targets recovers exactly the backlink keys. -/
theorem resolvedFilter_rels (cwd : String) (dir : MarkdownDirectory) (f : MarkdownFile)
    (hf : IsCanonP f.path) :
    ∀ (B : List String), (∀ bk ∈ B, TameKey cwd dir f bk) →
      resolvedFilter cwd f (B.map (fun bk => relpathP cwd bk (parentP f.path))) = B := by
  intro B
  induction B with
  | nil => intro _; rfl
  | cons bk rest ih =>
    intro hB
    have hbk := hB bk (List.mem_cons_self bk rest)
    have hrest := fun x hx => hB x (List.mem_cons_of_mem bk hx)
    unfold resolvedFilter
    rw [List.map_cons, List.filterMap_cons]
    rw [resolve_rel_entry cwd f bk hf hbk.1 hbk.2.1]
    rw [List.filter_cons, if_pos hbk.2.2.1]
    have := ih hrest
    unfold resolvedFilter at this
    rw [this]

/-- The links of a core plus a freshly rendered block are the links of the
core plus the block's backlink keys, in order. -/
theorem contentLinks_core_block (cwd : String) (dir : MarkdownDirectory) (f : MarkdownFile)
    (core : String) (B : List String) (hf : IsCanonP f.path)
    (hscan : scanState .outside core.data = .outside)
    (hB : ∀ bk ∈ B, TameKey cwd dir f bk) :
    contentLinks cwd f (core ++ blockTextOf cwd dir f B) =
      contentLinks cwd f core ++ B := by
  have hdata : (core ++ blockTextOf cwd dir f B).data =
      core.data ++ (blockTextOf cwd dir f B).data := String.data_append _ _
  rw [contentLinks_data_split cwd f _ core (blockTextOf cwd dir f B).data hdata hscan]
  congr 1
  have hblock : (blockTextOf cwd dir f B).data =
      marker.data ++ (strConcat (entryLines cwd dir f B)).data := String.data_append _ _
  rw [hblock, scanTargets_append, marker_scan.1, marker_scan.2, List.nil_append]
  rw [(entryLines_scan cwd dir f B hB).1]
  exact resolvedFilter_rels cwd dir f hf B hB

/-- `backlinkKeys` as a filter over the directory's entries. -/
theorem backlinkKeys_eq (fs : FS) (cwd : String) (dir : MarkdownDirectory) (f : MarkdownFile) :
    backlinkKeys fs cwd dir f =
      ((dir.files.filter (fun kf => (fileLinks fs cwd kf.2).contains f.path)).map
        Prod.fst).filter (fun k => !((fileLinks fs cwd f).contains k)) := by
  unfold backlinkKeys link_map
  rw [List.filter_map (fun kv : String × MarkdownFile => (kv.1, fileLinks fs cwd kv.2)) dir.files]
  rw [List.map_map]
  rfl

theorem backlinkKeys_subset (fs : FS) (cwd : String) (dir : MarkdownDirectory)
    (f : MarkdownFile) : ∀ k ∈ backlinkKeys fs cwd dir f, k ∈ dir.files.map Prod.fst := by
  intro k hk
  rw [backlinkKeys_eq] at hk
  have hk2 := (List.mem_filter.mp hk).1
  rcases List.mem_map.mp hk2 with ⟨kf, hkf, hfst⟩
  exact List.mem_map.mpr ⟨kf, (List.mem_filter.mp hkf).1, hfst⟩

/-- A document never receives a backlink entry for a target it itself links
to: the set difference with `self.links` removes it. -/
theorem backlinkKeys_excludes (fs : FS) (cwd : String) (dir : MarkdownDirectory)
    (f : MarkdownFile) (x : String) (h : x ∈ fileLinks fs cwd f) :
    x ∉ backlinkKeys fs cwd dir f := by
  intro hx
  rw [backlinkKeys_eq] at hx
  have := (List.mem_filter.mp hx).2
  rw [Bool.not_eq_true', ← Bool.not_eq_true] at this
  exact this ((containsP _ x).mpr h)

/-- Distinct keys make directory entries determined by their key. -/
theorem mem_eq_of_nodup_keys {β : Type} : ∀ (l : List (String × β)),
    (l.map Prod.fst).Nodup → ∀ a b, a ∈ l → b ∈ l → a.1 = b.1 → a = b := by
  intro l
  induction l with
  | nil => intro _ a b ha; simp at ha
  | cons kv rest ih =>
    intro hnodup a b ha hb he
    rw [List.map_cons, List.nodup_cons] at hnodup
    rcases List.mem_cons.mp ha with ha2 | ha2
    · rcases List.mem_cons.mp hb with hb2 | hb2
      · rw [ha2, hb2]
      · exfalso
        apply hnodup.1
        refine List.mem_map.mpr ⟨b, hb2, ?_⟩
        rw [← he, ha2]
    · rcases List.mem_cons.mp hb with hb2 | hb2
      · exfalso
        apply hnodup.1
        refine List.mem_map.mpr ⟨a, ha2, ?_⟩
        rw [he, hb2]
      · exact ih hnodup.2 a b ha2 hb2 he

/-- Membership in the backlink keys, for a directory entry with distinct
keys. -/
theorem mem_backlinkKeys (fs : FS) (cwd : String) (dir : MarkdownDirectory)
    (f : MarkdownFile) (hnodup : (dir.files.map Prod.fst).Nodup)
    (g : String × MarkdownFile) (hg : g ∈ dir.files) :
    g.1 ∈ backlinkKeys fs cwd dir f ↔
      (f.path ∈ fileLinks fs cwd g.2 ∧ g.1 ∉ fileLinks fs cwd f) := by
  rw [backlinkKeys_eq]
  constructor
  · intro h
    obtain ⟨h1, h2⟩ := List.mem_filter.mp h
    rcases List.mem_map.mp h1 with ⟨kf, hkf, hfst⟩
    obtain ⟨hkfmem, hkflinks⟩ := List.mem_filter.mp hkf
    have : kf = g := mem_eq_of_nodup_keys dir.files hnodup kf g hkfmem hg hfst
    subst this
    refine ⟨(containsP _ f.path).mp hkflinks, ?_⟩
    intro hmem
    rw [Bool.not_eq_true', ← Bool.not_eq_true] at h2
    exact h2 ((containsP _ kf.1).mpr hmem)
  · intro ⟨h1, h2⟩
    refine List.mem_filter.mpr ⟨List.mem_map.mpr ⟨g, List.mem_filter.mpr
      ⟨hg, (containsP _ f.path).mpr h1⟩, rfl⟩, ?_⟩
    rw [Bool.not_eq_true']
    rcases hcon : (fileLinks fs cwd f).contains g.1 with _ | _
    · rfl
    · exact absurd ((containsP _ g.1).mp hcon) h2

/-! ## The idempotence development -/

theorem fileLinks_read (fs : FS) (cwd : String) (f : MarkdownFile) (k : String)
    (hpath : f.path = k) (hcanon : IsCanonP k) :
    fileLinks fs cwd f = contentLinks cwd f (readFS fs k) := by
  unfold fileLinks
  rw [hpath, canon_resolveP_id cwd k hcanon]

theorem contains_eq_of_iff (l1 l2 : List String) (a : String) (h : a ∈ l1 ↔ a ∈ l2) :
    l1.contains a = l2.contains a := by
  rcases h1 : l1.contains a with _ | _
  · rcases h2 : l2.contains a with _ | _
    · rfl
    · have hm := (containsP l1 a).mpr (h.mpr ((containsP l2 a).mp h2))
      rw [h1] at hm
      exact absurd hm Bool.false_ne_true
  · rcases h2 : l2.contains a with _ | _
    · have hm := (containsP l2 a).mpr (h.mp ((containsP l1 a).mp h1))
      rw [h2] at hm
      exact absurd hm Bool.false_ne_true
    · rfl

theorem nodup_key_ne (L P S2 : List (String × MarkdownFile)) (g : String × MarkdownFile)
    (h : L = P ++ g :: S2) (hnodup : (L.map Prod.fst).Nodup) :
    (∀ kf ∈ P, kf.1 ≠ g.1) ∧ (∀ kf ∈ S2, kf.1 ≠ g.1) := by
  subst h
  rw [List.map_append, List.map_cons, List.nodup_append] at hnodup
  obtain ⟨hP, hgS, hdisj⟩ := hnodup
  rw [List.nodup_cons] at hgS
  constructor
  · intro kf hkf he
    exact hdisj (List.mem_map.mpr ⟨kf, hkf, rfl⟩) (he ▸ List.mem_cons_self _ _)
  · intro kf hkf he
    exact hgS.1 (he ▸ List.mem_map.mpr ⟨kf, hkf, rfl⟩)

/-- Every directory key is a tame backlink key under `GoodDir`. -/
theorem goodDir_tame (fs0 : FS) (cwd : String) (dir : MarkdownDirectory)
    (hGD : GoodDir fs0 cwd dir) (f : MarkdownFile) (hf : IsCanonP f.path)
    (bk : String) (hbk : bk ∈ dir.files.map Prod.fst) : TameKey cwd dir f bk := by
  obtain ⟨hcanon, _, htame, htitle, _⟩ := hGD
  obtain ⟨kf0, hkf0, hfst0⟩ := List.mem_map.mp hbk
  have hbkcanon : IsCanonP bk := hfst0 ▸ (hcanon kf0 hkf0).2
  have hbktame := htame kf0 hkf0
  rw [hfst0] at hbktame
  refine ⟨hbkcanon, hbktame.2.1, hbktame.2.2, ?_, ?_⟩
  · have hsome := lookup_isSome_of_mem_keys dir.files bk hbk
    rcases hlk : dir.files.lookup bk with _ | v
    · rw [hlk] at hsome
      exact absurd hsome (by simp)
    · have hvmem := lookup_mem dir.files bk v hlk
      exact htitle (bk, v) hvmem
  · apply relpathP_char_not_mem cwd bk (parentP f.path) ')' (by decide) (by decide)
    rw [canon_resolveP_id cwd bk hbkcanon]
    exact hbktame.1

/-- Unfolding `add_backlinks` at a file whose current truncation is its
original core. -/
theorem add_backlinks_step (fs0 : FS) (cwd : String) (dir : MarkdownDirectory)
    (kf : String × MarkdownFile) (fs : FS)
    (hpath : kf.2.path = kf.1) (hcanon : IsCanonP kf.1)
    (hcore : truncAtMarker (readFS fs kf.1) = coreOf fs0 kf.1) :
    add_backlinks fs cwd dir kf.2 =
      writeFS fs kf.1 (coreOf fs0 kf.1 ++ blockTextOf cwd dir kf.2
        (backlinkKeys (writeFS fs kf.1 (coreOf fs0 kf.1)) cwd dir kf.2)) := by
  show writeFS (writeFS fs (resolveP cwd kf.2.path)
      (truncAtMarker (readFS fs (resolveP cwd kf.2.path))))
      (resolveP cwd kf.2.path)
      (truncAtMarker (readFS fs (resolveP cwd kf.2.path)) ++ marker ++
        strConcat (entryLines cwd dir kf.2
          (backlinkKeys (writeFS fs (resolveP cwd kf.2.path)
            (truncAtMarker (readFS fs (resolveP cwd kf.2.path)))) cwd dir kf.2))) = _
  rw [hpath, canon_resolveP_id cwd kf.1 hcanon, hcore, writeFS_writeFS]
  unfold blockTextOf
  rw [String.append_assoc]

/-- Two backlink computations agree when their candidate predicates can
differ only at one entry whose key the exclusion filter rejects whenever
they do differ. -/
theorem filter_map_filter_almost (l : List (String × MarkdownFile))
    (hnodup : l.Nodup) (p1 p2 : (String × MarkdownFile) → Bool)
    (q : String → Bool) (g : String × MarkdownFile)
    (hagree : ∀ h ∈ l, h ≠ g → p1 h = p2 h)
    (hq : p1 g ≠ p2 g → q g.1 = false) :
    ((l.filter p1).map Prod.fst).filter q = ((l.filter p2).map Prod.fst).filter q := by
  induction l with
  | nil => rfl
  | cons h rest ih =>
    rw [List.nodup_cons] at hnodup
    have hagree2 : ∀ x ∈ rest, x ≠ g → p1 x = p2 x :=
      fun x hx => hagree x (List.mem_cons_of_mem h hx)
    by_cases hhg : h = g
    · subst hhg
      have hrest_eq : rest.filter p1 = rest.filter p2 := by
        apply List.filter_congr
        intro x hx
        exact hagree2 x hx (fun he => hnodup.1 (he ▸ hx))
      by_cases hpp : p1 h = p2 h
      · rw [List.filter_cons, List.filter_cons, hpp, hrest_eq]
      · have hqf := hq hpp
        rcases hp1 : p1 h with _ | _
        · rcases hp2 : p2 h with _ | _
          · exact absurd (hp1.trans hp2.symm) hpp
          · rw [List.filter_cons, List.filter_cons, hp1, hp2, if_neg (by simp), if_pos rfl]
            rw [List.map_cons, List.filter_cons, hqf, if_neg (by simp), hrest_eq]
        · rcases hp2 : p2 h with _ | _
          · rw [List.filter_cons, List.filter_cons, hp1, hp2, if_pos rfl, if_neg (by simp)]
            rw [List.map_cons, List.filter_cons, hqf, if_neg (by simp), hrest_eq]
          · exact absurd (hp1.trans hp2.symm) hpp
    · have hp12 : p1 h = p2 h := hagree h (List.mem_cons_self _ _) hhg
      rcases hp2 : p2 h with _ | _
      · rw [List.filter_cons, List.filter_cons, hp12, hp2, if_neg (by simp), if_neg (by simp)]
        exact ih hnodup.2 hagree2
      · rw [List.filter_cons, List.filter_cons, hp12, hp2, if_pos rfl, if_pos rfl]
        rw [List.map_cons, List.map_cons, List.filter_cons, List.filter_cons]
        rw [ih hnodup.2 hagree2]

/-- Processing one fresh file does not change the recomputed backlink set of
an already coherent file: every candidate the stale region contributed is
laundered into the fresh file's generated block, and every generated
candidate was already justified, unless the exclusion filter drops the key
either way. -/
theorem recompute_stable (fs0 : FS) (cwd : String) (dir : MarkdownDirectory)
    (hGD : GoodDir fs0 cwd dir) (f g : String × MarkdownFile)
    (hfmem : f ∈ dir.files) (hgmem : g ∈ dir.files) (hfg : f ≠ g) (fs : FS)
    (hfcoh : Coherent fs0 cwd dir fs f)
    (hgun : readFS fs g.1 = readFS fs0 g.1) :
    backlinkKeys (writeFS (writeFS fs g.1 (coreOf fs0 g.1 ++ blockTextOf cwd dir g.2
        (backlinkKeys (writeFS fs g.1 (coreOf fs0 g.1)) cwd dir g.2))) f.1
        (coreOf fs0 f.1)) cwd dir f.2 =
      backlinkKeys (writeFS fs f.1 (coreOf fs0 f.1)) cwd dir f.2 := by
  obtain ⟨hcanon, hnodupK, htame, htitle, hclean⟩ := hGD
  have hfpath : f.2.path = f.1 := (hcanon f hfmem).1
  have hfcanonP : IsCanonP f.1 := (hcanon f hfmem).2
  have hgpath : g.2.path = g.1 := (hcanon g hgmem).1
  have hgcanonP : IsCanonP g.1 := (hcanon g hgmem).2
  have hlnodup : dir.files.Nodup := hnodupK.of_map Prod.fst
  have hkeyne : f.1 ≠ g.1 :=
    fun he => hfg (mem_eq_of_nodup_keys dir.files hnodupK f g hfmem hgmem he)
  obtain ⟨hfpres, Bf, hfcontent, hBfdef⟩ := hfcoh
  have hscanF : scanState .outside (coreOf fs0 f.1).data = .outside := (hclean f hfmem).2
  have hscanG : scanState .outside (coreOf fs0 g.1).data = .outside := (hclean g hgmem).2
  set Bnew := backlinkKeys (writeFS fs g.1 (coreOf fs0 g.1)) cwd dir g.2 with hBnewdef
  set fs2 := writeFS fs g.1 (coreOf fs0 g.1 ++ blockTextOf cwd dir g.2 Bnew) with hfs2def
  set A1 := writeFS fs f.1 (coreOf fs0 f.1) with hA1def
  set A2 := writeFS fs2 f.1 (coreOf fs0 f.1) with hA2def
  have hGDpack : GoodDir fs0 cwd dir := ⟨hcanon, hnodupK, htame, htitle, hclean⟩
  have htameF : ∀ bk ∈ Bf, TameKey cwd dir f.2 bk := by
    intro bk hbk
    refine goodDir_tame fs0 cwd dir hGDpack f.2 (by rw [hfpath]; exact hfcanonP) bk ?_
    exact backlinkKeys_subset A1 cwd dir f.2 bk (hBfdef ▸ hbk)
  have htameG : ∀ bk ∈ Bnew, TameKey cwd dir g.2 bk := by
    intro bk hbk
    refine goodDir_tame fs0 cwd dir hGDpack g.2 (by rw [hgpath]; exact hgcanonP) bk ?_
    exact backlinkKeys_subset (writeFS fs g.1 (coreOf fs0 g.1)) cwd dir g.2 bk hbk
  have hlinksA1f : fileLinks A1 cwd f.2 = contentLinks cwd f.2 (coreOf fs0 f.1) := by
    rw [fileLinks_read A1 cwd f.2 f.1 hfpath hfcanonP, hA1def, readFS_writeFS_self]
  have hlinksA2f : fileLinks A2 cwd f.2 = contentLinks cwd f.2 (coreOf fs0 f.1) := by
    rw [fileLinks_read A2 cwd f.2 f.1 hfpath hfcanonP, hA2def, readFS_writeFS_self]
  obtain ⟨tg, htg⟩ := truncAtMarker_prefix (readFS fs0 g.1)
  set R := resolvedFilter cwd g.2 (scanTargets .outside tg) with hRdef
  have hlinksOrig : contentLinks cwd g.2 (readFS fs0 g.1) =
      contentLinks cwd g.2 (coreOf fs0 g.1) ++ R :=
    contentLinks_data_split cwd g.2 _ _ tg htg hscanG
  have hlinksA1g : fileLinks A1 cwd g.2 = contentLinks cwd g.2 (coreOf fs0 g.1) ++ R := by
    rw [fileLinks_read A1 cwd g.2 g.1 hgpath hgcanonP, hA1def,
      readFS_writeFS_ne fs f.1 g.1 _ hkeyne, hgun, hlinksOrig]
  have hblockG : contentLinks cwd g.2 (coreOf fs0 g.1 ++ blockTextOf cwd dir g.2 Bnew) =
      contentLinks cwd g.2 (coreOf fs0 g.1) ++ Bnew :=
    contentLinks_core_block cwd dir g.2 (coreOf fs0 g.1) Bnew
      (by rw [hgpath]; exact hgcanonP) hscanG htameG
  have hlinksA2g : fileLinks A2 cwd g.2 = contentLinks cwd g.2 (coreOf fs0 g.1) ++ Bnew := by
    rw [fileLinks_read A2 cwd g.2 g.1 hgpath hgcanonP, hA2def,
      readFS_writeFS_ne fs2 f.1 g.1 _ hkeyne, hfs2def, readFS_writeFS_self, hblockG]
  have hblockF : contentLinks cwd f.2 (coreOf fs0 f.1 ++ blockTextOf cwd dir f.2 Bf) =
      contentLinks cwd f.2 (coreOf fs0 f.1) ++ Bf :=
    contentLinks_core_block cwd dir f.2 (coreOf fs0 f.1) Bf
      (by rw [hfpath]; exact hfcanonP) hscanF htameF
  have hlinksFSpF : fileLinks (writeFS fs g.1 (coreOf fs0 g.1)) cwd f.2 =
      contentLinks cwd f.2 (coreOf fs0 f.1) ++ Bf := by
    rw [fileLinks_read _ cwd f.2 f.1 hfpath hfcanonP,
      readFS_writeFS_ne fs g.1 f.1 _ (Ne.symm hkeyne), hfcontent, hblockF]
  have hlinksFSpG : fileLinks (writeFS fs g.1 (coreOf fs0 g.1)) cwd g.2 =
      contentLinks cwd g.2 (coreOf fs0 g.1) := by
    rw [fileLinks_read _ cwd g.2 g.1 hgpath hgcanonP, readFS_writeFS_self]
  have hiff : g.1 ∉ contentLinks cwd f.2 (coreOf fs0 f.1) →
      (f.1 ∈ fileLinks A2 cwd g.2 ↔ f.1 ∈ fileLinks A1 cwd g.2) := by
    intro hgc
    rw [hlinksA2g, hlinksA1g]
    constructor
    · intro h
      rcases List.mem_append.mp h with h | h
      · exact List.mem_append.mpr (Or.inl h)
      · have hmB := (mem_backlinkKeys (writeFS fs g.1 (coreOf fs0 g.1)) cwd dir g.2
          hnodupK f hfmem).mp h
        obtain ⟨h1, _⟩ := hmB
        rw [hgpath, hlinksFSpF] at h1
        rcases List.mem_append.mp h1 with h1 | h1
        · exact absurd h1 hgc
        · rw [hBfdef] at h1
          have hmB2 := (mem_backlinkKeys A1 cwd dir f.2 hnodupK g hgmem).mp h1
          rw [hfpath, hlinksA1g] at hmB2
          exact hmB2.1
    · intro h
      rcases List.mem_append.mp h with h | h
      · exact List.mem_append.mpr (Or.inl h)
      · by_cases hcg : f.1 ∈ contentLinks cwd g.2 (coreOf fs0 g.1)
        · exact List.mem_append.mpr (Or.inl hcg)
        · refine List.mem_append.mpr (Or.inr ?_)
          apply (mem_backlinkKeys (writeFS fs g.1 (coreOf fs0 g.1)) cwd dir g.2
            hnodupK f hfmem).mpr
          constructor
          · rw [hgpath, hlinksFSpF]
            refine List.mem_append.mpr (Or.inr ?_)
            rw [hBfdef]
            apply (mem_backlinkKeys A1 cwd dir f.2 hnodupK g hgmem).mpr
            refine ⟨?_, ?_⟩
            · rw [hfpath, hlinksA1g]
              exact List.mem_append.mpr (Or.inr h)
            · rw [hlinksA1f]
              exact hgc
          · rw [hlinksFSpG]
            exact hcg
  rw [backlinkKeys_eq, backlinkKeys_eq]
  have hq12 : fileLinks A2 cwd f.2 = fileLinks A1 cwd f.2 := by
    rw [hlinksA2f, hlinksA1f]
  rw [hq12]
  apply filter_map_filter_almost dir.files hlnodup _ _ _ g
  · intro h hh hne
    have hhpath : h.2.path = h.1 := (hcanon h hh).1
    have hhcanonP : IsCanonP h.1 := (hcanon h hh).2
    have hread : readFS A2 h.1 = readFS A1 h.1 := by
      by_cases hf1 : h.1 = f.1
      · rw [hf1, hA2def, hA1def, readFS_writeFS_self, readFS_writeFS_self]
      · have hg1 : h.1 ≠ g.1 :=
          fun he => hne (mem_eq_of_nodup_keys dir.files hnodupK h g hh hgmem he)
        rw [hA2def, hA1def, readFS_writeFS_ne fs2 f.1 h.1 _ (fun e => hf1 e.symm),
          readFS_writeFS_ne fs f.1 h.1 _ (fun e => hf1 e.symm), hfs2def,
          readFS_writeFS_ne fs g.1 h.1 _ (fun e => hg1 e.symm)]
    rw [fileLinks_read A2 cwd h.2 h.1 hhpath hhcanonP,
      fileLinks_read A1 cwd h.2 h.1 hhpath hhcanonP, hread]
  · intro hpp
    by_cases hgc : g.1 ∈ contentLinks cwd f.2 (coreOf fs0 f.1)
    · show (!(fileLinks A1 cwd f.2).contains g.1) = false
      rw [hlinksA1f, (containsP _ g.1).mpr hgc]
      rfl
    · exfalso
      apply hpp
      show (fileLinks A2 cwd g.2).contains f.2.path = (fileLinks A1 cwd g.2).contains f.2.path
      rw [hfpath]
      exact contains_eq_of_iff _ _ f.1 (hiff hgc)

/-- The backlink pass establishes and preserves coherence: after the fold,
every file of the collection is coherent in the final state. -/
theorem fold_inv (fs0 : FS) (cwd : String) (dir : MarkdownDirectory)
    (hGD : GoodDir fs0 cwd dir) :
    ∀ (S P : List (String × MarkdownFile)) (fs : FS),
      dir.files = P ++ S →
      (∀ kf ∈ S, readFS fs kf.1 = readFS fs0 kf.1) →
      (∀ kf ∈ P, Coherent fs0 cwd dir fs kf) →
      ∀ kf ∈ dir.files, Coherent fs0 cwd dir
        (S.foldl (fun s kv => add_backlinks s cwd dir kv.2) fs) kf := by
  intro S
  induction S with
  | nil =>
    intro P fs hsplit _ hP kf hkf
    rw [List.foldl_nil]
    rw [List.append_nil] at hsplit
    exact hP kf (hsplit ▸ hkf)
  | cons g S2 ih =>
    intro P fs hsplit hS hP kf hkf
    have hcanon := hGD.1
    have hnodupK := hGD.2.1
    have hclean := hGD.2.2.2.2
    have hgmem : g ∈ dir.files := hsplit ▸ List.mem_append_right P (List.mem_cons_self g S2)
    have hne := nodup_key_ne dir.files P S2 g hsplit hnodupK
    have hgun : readFS fs g.1 = readFS fs0 g.1 := hS g (List.mem_cons_self g S2)
    have hgcore : truncAtMarker (readFS fs g.1) = coreOf fs0 g.1 := by
      rw [hgun]
      rfl
    have hstep := add_backlinks_step fs0 cwd dir g fs (hcanon g hgmem).1 (hcanon g hgmem).2 hgcore
    rw [List.foldl_cons, hstep]
    refine ih (P ++ [g])
      (writeFS fs g.1 (coreOf fs0 g.1 ++ blockTextOf cwd dir g.2
        (backlinkKeys (writeFS fs g.1 (coreOf fs0 g.1)) cwd dir g.2)))
      ?_ ?_ ?_ kf hkf
    · rw [hsplit]
      simp
    · intro kf2 hkf2
      have hne2 : kf2.1 ≠ g.1 := hne.2 kf2 hkf2
      rw [readFS_writeFS_ne fs g.1 kf2.1 _ (fun e => hne2 e.symm)]
      exact hS kf2 (List.mem_cons_of_mem g hkf2)
    · intro kf2 hkf2
      rcases List.mem_append.mp hkf2 with h | h
      · obtain ⟨hpres, B, hcontent, hBdef⟩ := hP kf2 h
        have hkne : kf2.1 ≠ g.1 := hne.1 kf2 h
        have hkmem : kf2 ∈ dir.files := hsplit ▸ List.mem_append_left _ h
        refine ⟨mem_keys_writeFS fs g.1 _ kf2.1 (Or.inl hpres), B, ?_, ?_⟩
        · rw [readFS_writeFS_ne fs g.1 kf2.1 _ (fun e => hkne e.symm)]
          exact hcontent
        · rw [hBdef]
          exact (recompute_stable fs0 cwd dir hGD kf2 g hkmem hgmem
            (fun he => hkne (congrArg Prod.fst he)) fs ⟨hpres, B, hcontent, hBdef⟩ hgun).symm
      · have hkg : kf2 = g := List.mem_singleton.mp h
        subst hkg
        refine ⟨mem_keys_writeFS fs kf2.1 _ kf2.1 (Or.inr rfl),
          backlinkKeys (writeFS fs kf2.1 (coreOf fs0 kf2.1)) cwd dir kf2.2, ?_, ?_⟩
        · rw [readFS_writeFS_self]
        · rw [writeFS_writeFS]

/-- A coherent file is a fixed point of `add_backlinks`. -/
theorem add_backlinks_fixpoint (fs0 : FS) (cwd : String) (dir : MarkdownDirectory)
    (hGD : GoodDir fs0 cwd dir) (kf : String × MarkdownFile) (hkf : kf ∈ dir.files)
    (T : FS) (hcoh : Coherent fs0 cwd dir T kf) :
    add_backlinks T cwd dir kf.2 = T := by
  obtain ⟨hpres, B, hcontent, hBdef⟩ := hcoh
  have hMC : MClean (coreOf fs0 kf.1) := (hGD.2.2.2.2 kf hkf).1
  have htrunc : truncAtMarker (readFS T kf.1) = coreOf fs0 kf.1 := by
    rw [hcontent]
    unfold blockTextOf
    rw [← String.append_assoc]
    exact truncAtMarker_restore _ _ hMC
  have hstep := add_backlinks_step fs0 cwd dir kf T (hGD.1 kf hkf).1 (hGD.1 kf hkf).2 htrunc
  rw [hstep, ← hBdef, ← hcontent]
  exact writeFS_id T kf.1 hpres

/-- A state in which every file is coherent is a fixed point of the whole
pass. -/
theorem add_all_fixpoint (fs0 : FS) (cwd : String) (dir : MarkdownDirectory)
    (hGD : GoodDir fs0 cwd dir) (T : FS)
    (hcoh : ∀ kf ∈ dir.files, Coherent fs0 cwd dir T kf) :
    add_all_backlinks T cwd dir = T := by
  show dir.files.foldl (fun s kv => add_backlinks s cwd dir kv.2) T = T
  have hgen : ∀ (L : List (String × MarkdownFile)), (∀ kf ∈ L, kf ∈ dir.files) →
      L.foldl (fun s kv => add_backlinks s cwd dir kv.2) T = T := by
    intro L
    induction L with
    | nil => intro _; rfl
    | cons kf rest ih2 =>
      intro hsub
      rw [List.foldl_cons, add_backlinks_fixpoint fs0 cwd dir hGD kf
        (hsub kf (List.mem_cons_self kf rest)) T (hcoh kf (hsub kf (List.mem_cons_self kf rest)))]
      exact ih2 (fun x hx => hsub x (List.mem_cons_of_mem kf hx))
  exact hgen dir.files (fun x hx => hx)

/-- Idempotence of the backlink-injection pass over a well-formed
collection. -/
theorem add_all_backlinks_idempotent (fs0 : FS) (cwd : String) (dir : MarkdownDirectory)
    (hGD : GoodDir fs0 cwd dir) :
    add_all_backlinks (add_all_backlinks fs0 cwd dir) cwd dir =
      add_all_backlinks fs0 cwd dir := by
  have hcoh := fold_inv fs0 cwd dir hGD dir.files [] fs0 (List.nil_append _).symm
    (fun kf _ => rfl) (fun kf h => absurd h (List.not_mem_nil kf))
  exact add_all_fixpoint fs0 cwd dir hGD _ hcoh

/-! ## Lemmas: collection construction -/

theorem strExt (s t : String) (h : s.data = t.data) : s = t := by
  rw [← strMk_data s, ← strMk_data t, h]

theorem dictInsert_inv {α β : Type} [DecidableEq α] (P : α × β → Prop)
    (m : List (α × β)) (k : α) (v : β) (hm : ∀ kv ∈ m, P kv) (hkv : P (k, v)) :
    ∀ kv ∈ dictInsert m k v, P kv := by
  intro kv hkvmem
  unfold dictInsert at hkvmem
  by_cases hc : (m.map Prod.fst).contains k = true
  · rw [if_pos hc] at hkvmem
    rcases List.mem_map.mp hkvmem with ⟨orig, horig, heq⟩
    by_cases ho : orig.1 = k
    · rw [if_pos ho] at heq
      rw [← heq]
      exact hkv
    · rw [if_neg ho] at heq
      rw [← heq]
      exact hm orig horig
  · rw [if_neg hc] at hkvmem
    rcases List.mem_append.mp hkvmem with h | h
    · exact hm kv h
    · rw [List.mem_singleton.mp h]
      exact hkv

theorem foldl_dictInsert_inv (P : String × MarkdownFile → Prop)
    (key : String → String) (file : String → MarkdownFile) :
    ∀ (xs : List String) (m : List (String × MarkdownFile)),
      (∀ kv ∈ m, P kv) → (∀ x ∈ xs, P (key x, file x)) →
      ∀ kv ∈ xs.foldl (fun m each => dictInsert m (key each) (file each)) m, P kv := by
  intro xs
  induction xs with
  | nil =>
    intro m hm _ kv hkv
    exact hm kv hkv
  | cons x rest ih =>
    intro m hm hxs kv hkv
    rw [List.foldl_cons] at hkv
    refine ih (dictInsert m (key x) (file x))
      (dictInsert_inv P m (key x) (file x) hm (hxs x (List.mem_cons_self x rest)))
      (fun y hy => hxs y (List.mem_cons_of_mem x hy)) kv hkv

/-- Under a canonical absolute root spelling over a canonical filesystem,
every discovered `rglob` spelling is itself the canonical key. -/
theorem discovered_canon (fs : FS) (cwd root : String) (hroot : IsCanonP root)
    (hfs : ∀ kv ∈ fs, IsCanonP kv.1) :
    ∀ x ∈ discovered fs cwd root, IsCanonP x := by
  intro x hx
  unfold discovered at hx
  rcases List.mem_filterMap.mp hx with ⟨kv, hkv, heq⟩
  rw [canon_resolveP_id cwd root hroot] at heq
  by_cases hcond : ((root ++ "/").data.isPrefixOf kv.1.data && endsWithMd kv.1) = true
  · rw [if_pos hcond] at heq
    have hpre : (root ++ "/").data.isPrefixOf kv.1.data = true :=
      (Bool.and_eq_true _ _).mp hcond |>.1
    rw [List.isPrefixOf_iff_prefix] at hpre
    obtain ⟨t, ht⟩ := hpre
    have hdrop : kv.1.data.drop (root ++ "/").data.length = t := by
      rw [← ht, List.drop_left]
    have hre : root ++ "/" ++ String.mk (kv.1.data.drop (root ++ "/").data.length) = kv.1 := by
      apply strExt
      rw [String.data_append, hdrop, ht]
    have hx2 : x = pathlibNorm kv.1 := by
      rw [← Option.some.inj heq, hre]
    rw [hx2, canon_pathlibNorm_id kv.1 (hfs kv hkv)]
    exact hfs kv hkv
  · rw [if_neg hcond] at heq
    exact absurd heq (by simp)

theorem get_absolute_path_eq (cwd : String) (f : MarkdownFile) (s : String) :
    get_absolute_path cwd f (some s) =
      (if s.data.length = 0 then none
       else if s.data.head? = some '/' then some (pathlibNorm s)
       else some (resolveP (resolveP cwd (parentP f.path)) (stripFrag s))) := rfl

theorem parentP_char_not_mem (s : String) (ch : Char) (h1 : ch ≠ '/') (h2 : ch ≠ '.')
    (h3 : ch ∉ s.data) : ch ∉ (parentP s).data := by
  rw [parentP_eq]
  have hcomp : ∀ c ∈ (pathComps s).dropLast, ∀ e ∈ c.data, e ∈ s.data :=
    fun c hc => (pathComps_mem_clean s c (List.dropLast_subset _ hc)).2.2.2
  by_cases habs : isAbs s = true
  · rw [if_pos habs]
    intro hm
    rw [String.data_append, slash_data] at hm
    rcases List.mem_cons.mp (by simpa using hm) with h | h
    · exact h1 h
    · rcases interSlash_data_mem _ ch h with h | ⟨c, hc, hchc⟩
      · exact h1 h
      · exact h3 (hcomp c hc ch hchc)
  · rw [if_neg habs]
    rcases hdl : (pathComps s).dropLast with _ | ⟨c0, rest⟩
    · intro hm
      rcases List.mem_singleton.mp (by simpa using hm) with h
      exact h2 h
    · intro hm
      rcases interSlash_data_mem _ ch hm with h | ⟨c, hc, hchc⟩
      · exact h1 h
      · exact h3 (hcomp c (hdl ▸ hc) ch hchc)

/-! ## The specification claims -/

/-- Claim C1 (corrected): the backlink set `add_backlinks` computes is not
the canonical-path formula for every root spelling.  With the collection
root spelled relative to the working directory, the stored document paths
are relative spellings, the membership test `self.path in value` compares
them against resolved absolute link values, and the computed set is empty
while the spec formula on canonical paths is not; the two spellings of the
same root produce different pass outputs. -/
theorem C1_counterexample :
    add_all_backlinks fsEx "/r" dirExRel ≠ add_all_backlinks fsEx "/r" dirExAbs ∧
    backlinkKeys fsEx "/r" dirExRel fileBRel = [] ∧
    specBacklinks fsEx "/r" dirExRel "/r/notes/b.md" fileBRel = ["/r/notes/a.md"] := by
  refine ⟨by decide, by decide, by decide⟩

/-- Claim C1 (amended): for a document whose stored path coincides with its
canonical key — which holds whenever the collection root is spelled as an
absolute canonical path — the set of backlink keys computed by
`add_backlinks` equals the spec formula
`(S : S a key of link_map, D in link_map[S]) - outbound_links(D)` with
membership on the canonical path. -/
theorem C1_amended (fs : FS) (cwd : String) (dir : MarkdownDirectory)
    (k : String) (f : MarkdownFile) (hpath : f.path = k) :
    backlinkKeys fs cwd dir f = specBacklinks fs cwd dir k f := by
  unfold backlinkKeys specBacklinks
  rw [hpath]

theorem C1_amended_witness :
    fileB.path = "/r/notes/b.md" ∧
    backlinkKeys fsEx "/r" dirExAbs fileB =
      specBacklinks fsEx "/r" dirExAbs "/r/notes/b.md" fileB :=
  ⟨by decide, C1_amended fsEx "/r" dirExAbs "/r/notes/b.md" fileB (by decide)⟩

/-- Claim C2: running `add_all_backlinks` twice on a well-formed collection
(canonical keys stored as paths, distinct markup-extension keys, headings
that cannot close a link's label early, and marker-clean truncated cores)
leaves every file byte-identical to the state after one run: the truncation
at the marker exactly undoes the previous append, and recomputation over
the once-processed state reproduces every block. -/
theorem C2_idempotent (fs0 : FS) (cwd : String) (dir : MarkdownDirectory)
    (hGD : GoodDir fs0 cwd dir) :
    add_all_backlinks (add_all_backlinks fs0 cwd dir) cwd dir =
      add_all_backlinks fs0 cwd dir := by
  have hcoh := fold_inv fs0 cwd dir hGD dir.files [] fs0 (List.nil_append _).symm
    (fun kf _ => rfl) (fun kf h => absurd h (List.not_mem_nil kf))
  exact add_all_fixpoint fs0 cwd dir hGD _ hcoh

theorem C2_witness :
    GoodDir fsEx "/r" dirExAbs ∧
    add_all_backlinks (add_all_backlinks fsEx "/r" dirExAbs) "/r" dirExAbs =
      add_all_backlinks fsEx "/r" dirExAbs :=
  ⟨by decide, C2_idempotent fsEx "/r" dirExAbs (by decide)⟩

/-- Claim C3 (counterexample): with `a.md` linking to `b.md` one-way, A's
outbound links contain B's canonical path, yet A does appear among the
backlink entries computed for B — the code excludes what the receiving
document itself links to, not documents that link to it. -/
theorem C3_counterexample :
    "/r/notes/b.md" ∈ fileLinks fsEx "/r" fileA ∧
    "/r/notes/a.md" ∈ backlinkKeys fsEx "/r" dirExAbs fileB := by
  refine ⟨by decide, by decide⟩

/-- Claim C3 (amended): if B's outbound links contain X at the moment B's
backlinks are computed, then X does not appear among the entries generated
for B; in particular two mutually linking documents generate an entry for
neither. -/
theorem C3_exclusion (fs : FS) (cwd : String) (dir : MarkdownDirectory)
    (f : MarkdownFile) (x : String) (h : x ∈ fileLinks fs cwd f) :
    x ∉ backlinkKeys fs cwd dir f :=
  backlinkKeys_excludes fs cwd dir f x h

theorem C3_witness : "/m/a.md" ∉ backlinkKeys fsMut "/w" dirMut fileMutB :=
  C3_exclusion fsMut "/w" dirMut fileMutB "/m/a.md" (by decide)

/-- Claim C4 (counterexample): an absolute-marker target keeps its fragment:
`get_absolute_path` returns it verbatim, the extension filter strips the
fragment only for its own test, and the fragment-bearing path lands in
`outbound_links`. -/
theorem C4_counterexample :
    get_absolute_path "/w" fileC (some "/d/b.md#sec") = some "/d/b.md#sec" ∧
    "/d/b.md#sec" ∈ fileLinks fsFrag "/w" fileC ∧
    '#' ∈ ("/d/b.md#sec" : String).data := by
  refine ⟨by decide, by decide, by decide⟩

/-- Claim C4 (amended): for every non-empty target without the
absolute-path marker, the fragment is stripped before resolution and the
resolved path contains no fragment (given a fragment-free working directory
and document path); an absolute-marker target is returned verbatim,
fragment included. -/
theorem C4_fragment (cwd : String) (f : MarkdownFile) (s : String)
    (hne : s.data ≠ []) (habs : s.data.head? ≠ some '/')
    (hcwd : '#' ∉ cwd.data) (hpath : '#' ∉ f.path.data) :
    get_absolute_path cwd f (some s) =
      some (resolveP (resolveP cwd (parentP f.path)) (stripFrag s)) ∧
    '#' ∉ (resolveP (resolveP cwd (parentP f.path)) (stripFrag s)).data := by
  constructor
  · rw [get_absolute_path_eq, if_neg (by rw [List.length_eq_zero]; exact hne), if_neg habs]
  · apply resolveP_char_mem _ _ '#' (by decide)
    · apply resolveP_char_mem _ _ '#' (by decide) hcwd
      exact parentP_char_not_mem f.path '#' (by decide) (by decide) hpath
    · exact stripFrag_noHash s

theorem C4_witness :
    get_absolute_path "/r" fileA (some "b.md#x") =
      some (resolveP (resolveP "/r" (parentP fileA.path)) (stripFrag "b.md#x")) ∧
    '#' ∉ (resolveP (resolveP "/r" (parentP fileA.path)) (stripFrag "b.md#x")).data :=
  C4_fragment "/r" fileA "b.md#x" (by decide) (by decide) (by decide) (by decide)

/-- Claim C5 (counterexample): an element of `outbound_links` whose raw
target was absolute-marker-prefixed with a fragment has extension
`.md#sec`, not the markup extension, so not every element carries the
recognized extension. -/
theorem C5_counterexample :
    "/d/b.md#sec" ∈ fileLinks fsFrag "/w" fileC ∧
    lowerStr (extOf "/d/b.md#sec") ≠ ".md" := by
  refine ⟨by decide, by decide⟩

/-- Claim C5 (amended): every element of `outbound_links` satisfies the
code's filter: after stripping any fragment, its extension lower-cases to
the recognized markup extension; targets such as `image.png` or
`http://example.com` therefore never appear. -/
theorem C5_extension (fs : FS) (cwd : String) (f : MarkdownFile) (x : String)
    (h : x ∈ fileLinks fs cwd f) : lowerStr (extOf (stripFrag x)) = ".md" := by
  unfold fileLinks contentLinks at h
  have := (List.mem_filter.mp h).2
  unfold isMdLink at this
  exact beq_iff_eq.mp this

theorem C5_witness : lowerStr (extOf (stripFrag "/r/notes/b.md")) = ".md" :=
  C5_extension fsEx "/r" fileA "/r/notes/b.md" (by decide)

/-- Claim C6: `get_absolute_path` is a pure function with exactly three
behaviours — absent for a non-string or empty input; the input itself, as a
path, when it begins with the root marker; otherwise the fragment-stripped
input resolved against the document's own directory, and that result is a
canonical absolute path. -/
theorem C6_get_absolute_path (cwd : String) (f : MarkdownFile) :
    get_absolute_path cwd f none = none ∧
    get_absolute_path cwd f (some "") = none ∧
    (∀ s : String, s.data ≠ [] → s.data.head? = some '/' →
      get_absolute_path cwd f (some s) = some (pathlibNorm s)) ∧
    (∀ s : String, s.data ≠ [] → s.data.head? ≠ some '/' →
      get_absolute_path cwd f (some s) =
        some (resolveP (resolveP cwd (parentP f.path)) (stripFrag s)) ∧
      IsCanonP (resolveP (resolveP cwd (parentP f.path)) (stripFrag s))) := by
  refine ⟨rfl, rfl, ?_, ?_⟩
  · intro s hne hhead
    rw [get_absolute_path_eq, if_neg (by rw [List.length_eq_zero]; exact hne), if_pos hhead]
  · intro s hne hhead
    constructor
    · rw [get_absolute_path_eq, if_neg (by rw [List.length_eq_zero]; exact hne), if_neg hhead]
    · exact resolveP_isCanon _ _

theorem C6_witness :
    get_absolute_path "/r" fileA none = none ∧
    get_absolute_path "/r" fileA (some "/x/y.md#z") = some (pathlibNorm "/x/y.md#z") ∧
    get_absolute_path "/r" fileA (some "b.md") =
      some (resolveP (resolveP "/r" (parentP fileA.path)) (stripFrag "b.md")) :=
  ⟨(C6_get_absolute_path "/r" fileA).1,
   (C6_get_absolute_path "/r" fileA).2.2.1 "/x/y.md#z" (by decide) (by decide),
   ((C6_get_absolute_path "/r" fileA).2.2.2 "b.md" (by decide) (by decide)).1⟩

/-- Claim C7: every backlink candidate is a key of the collection's
documents mapping, so the title lookup always succeeds; a dangling or
out-of-collection link target is never a candidate and is silently
excluded. -/
theorem C7_lookup_safe (fs : FS) (cwd : String) (dir : MarkdownDirectory)
    (f : MarkdownFile) :
    ∀ k ∈ backlinkKeys fs cwd dir f,
      k ∈ dir.files.map Prod.fst ∧ (dir.files.lookup k).isSome = true := by
  intro k hk
  have hmem := backlinkKeys_subset fs cwd dir f k hk
  exact ⟨hmem, lookup_isSome_of_mem_keys dir.files k hmem⟩

theorem C7_witness :
    "/r/notes/a.md" ∈ dirExAbs.files.map Prod.fst ∧
    (dirExAbs.files.lookup "/r/notes/a.md").isSome = true :=
  C7_lookup_safe fsEx "/r" dirExAbs fileB "/r/notes/a.md" (by decide)

/-- Claim C8: the text `add_backlinks` appends after the truncated content
is byte-for-byte the block of the spec — the literal
`\n\n---\n\n## Backlinks:\n` marker followed by one
`- [<title>](<relative-path>)\n` line per computed backlink, the title
being the linking document's stored title and the path computed by
`os.path.relpath` from this document's directory to the linking document's
canonical path. -/
theorem C8_block_format (fs : FS) (cwd : String) (dir : MarkdownDirectory)
    (f : MarkdownFile) :
    readFS (add_backlinks fs cwd dir f) (resolveP cwd f.path) =
      truncAtMarker (readFS fs (resolveP cwd f.path)) ++
        specBlockRender cwd dir f
          (backlinkKeys (writeFS fs (resolveP cwd f.path)
            (truncAtMarker (readFS fs (resolveP cwd f.path)))) cwd dir f) := by
  show readFS (writeFS _ _ _) _ = _
  rw [readFS_writeFS_self]
  rw [String.append_assoc]
  rfl

/-- Claim C10: `add_backlinks` appends the separator and heading block even
when the computed backlink set is empty: the rewritten file is always the
truncated content followed by the marker block, and with no backlinks it
ends with the bare marker — the file is rewritten, not left unchanged. -/
theorem C10_empty_block (fs : FS) (cwd : String) (dir : MarkdownDirectory)
    (f : MarkdownFile) :
    readFS (add_backlinks fs cwd dir f) (resolveP cwd f.path) =
      truncAtMarker (readFS fs (resolveP cwd f.path)) ++ marker ++
        strConcat (entryLines cwd dir f
          (backlinkKeys (writeFS fs (resolveP cwd f.path)
            (truncAtMarker (readFS fs (resolveP cwd f.path)))) cwd dir f)) ∧
    (backlinkKeys (writeFS fs (resolveP cwd f.path)
        (truncAtMarker (readFS fs (resolveP cwd f.path)))) cwd dir f = [] →
      readFS (add_backlinks fs cwd dir f) (resolveP cwd f.path) =
        truncAtMarker (readFS fs (resolveP cwd f.path)) ++ marker) := by
  constructor
  · show readFS (writeFS _ _ _) _ = _
    rw [readFS_writeFS_self]
  · intro hempty
    show readFS (writeFS _ _ _) _ = _
    rw [readFS_writeFS_self, hempty]
    show _ ++ marker ++ strConcat [] = _ ++ marker
    rw [show strConcat [] = "" from rfl, String.append_empty]

theorem C10_witness :
    backlinkKeys (writeFS fsEx "/r/notes/a.md"
        (truncAtMarker (readFS fsEx "/r/notes/a.md"))) "/r" dirExAbs fileA = [] ∧
    readFS (add_backlinks fsEx "/r" dirExAbs fileA) (resolveP "/r" fileA.path) =
      truncAtMarker (readFS fsEx (resolveP "/r" fileA.path)) ++ marker := by
  refine ⟨by decide, ?_⟩
  exact (C10_empty_block fsEx "/r" dirExAbs fileA).2 (by decide)

/-- Claim C9 (counterexample): with the collection root spelled relative to
the working directory, the stored `path` of a constructed document is the
relative `rglob` spelling, not the canonical absolute key it is stored
under. -/
theorem C9_counterexample : ¬ ∀ kf ∈ dirExRel.files, kf.2.path = kf.1 := by
  decide

/-- Claim C9 (amended): when the collection root is spelled as a canonical
absolute path over a canonical filesystem, every constructed document
stores exactly the canonical key it is filed under, and resolving the
stored path yields that key. -/
theorem C9_amended (fs : FS) (cwd root : String) (hroot : IsCanonP root)
    (hfs : ∀ kv ∈ fs, IsCanonP kv.1) :
    ∀ kf ∈ (mkMarkdownDirectory fs cwd root).files,
      kf.2.path = kf.1 ∧ resolveP cwd kf.2.path = kf.1 := by
  intro kf hkf
  unfold mkMarkdownDirectory at hkf
  refine foldl_dictInsert_inv (fun kv => kv.2.path = kv.1 ∧ resolveP cwd kv.2.path = kv.1)
    (fun each => resolveP (resolveP cwd (parentP (pathlibNorm root))) each)
    (fun each => mkMarkdownFile fs cwd each)
    (discovered fs cwd root) [] (fun kv hkv => absurd hkv (List.not_mem_nil kv))
    ?_ kf hkf
  intro x hx
  have hxcanon : IsCanonP x := discovered_canon fs cwd root hroot hfs x hx
  have hrp : resolveP (resolveP cwd (parentP (pathlibNorm root))) x = x :=
    canon_resolveP_id _ x hxcanon
  have hpath : (mkMarkdownFile fs cwd x).path = x := rfl
  refine ⟨?_, ?_⟩
  · show (mkMarkdownFile fs cwd x).path = resolveP (resolveP cwd (parentP (pathlibNorm root))) x
    rw [hpath, hrp]
  · show resolveP cwd (mkMarkdownFile fs cwd x).path =
      resolveP (resolveP cwd (parentP (pathlibNorm root))) x
    rw [hpath, hrp, canon_resolveP_id cwd x hxcanon]

theorem C9_witness :
    IsCanonP "/r/notes" ∧
    ∀ kf ∈ dirExAbs.files, kf.2.path = kf.1 ∧ resolveP "/r" kf.2.path = kf.1 :=
  ⟨by decide, C9_amended fsEx "/r" "/r/notes" (by decide) (by decide)⟩

end BacklinkAdder
